import Mathlib

/-!
Verification development for the delivery-slip extraction and reconciliation
engine (`src-tauri/src/excel_parser.rs`, `src-tauri/src/data_processor.rs`).

The Rust code is shallowly embedded: spreadsheet cells become an inductive
`Cell`, `f64` becomes `F64` (NaN or an exact rational; finite-precision
rounding and infinities are not modelled — no claim depends on them), the
chrono date routines become explicit calendar arithmetic, and the per-file
I/O boundary of the reconciliation engine is made a parameter (each file is
given together with its extraction outcome).
-/

namespace AnaSpec

/-- Model of Rust `f64` as used by the pipeline: NaN or an exact rational. -/
inductive F64 where
  | nan : F64
  | num (q : ℚ) : F64
deriving DecidableEq

/-- IEEE addition on the model: NaN absorbs. -/
def F64.add : F64 → F64 → F64
  | .num a, .num b => .num (a + b)
  | _, _ => .nan

/-- IEEE multiplication on the model: NaN absorbs. -/
def F64.mul : F64 → F64 → F64
  | .num a, .num b => .num (a * b)
  | _, _ => .nan

/-- Division. IEEE `x / 0` would be ±inf or NaN; it is collapsed to NaN here
because the code only divides after a `> 0.0` guard, so no claim reaches it. -/
def F64.div : F64 → F64 → F64
  | .num a, .num b => if b = 0 then .nan else .num (a / b)
  | _, _ => .nan

/-- The comparison `x > 0.0` (false for NaN, as in IEEE). -/
def F64.gtZero : F64 → Bool
  | .num a => decide (0 < a)
  | .nan => false

/-- Rust `f64::round`: round half away from zero. -/
def ratRoundAway (q : ℚ) : ℤ :=
  if 0 ≤ q then (q + 1/2).floor else -((-q + 1/2).floor)

/-- `f64::round` lifted to the model. -/
def F64.rnd : F64 → F64
  | .num a => .num (ratRoundAway a)
  | .nan => .nan

/-- Rust `f64::partial_cmp`: `none` iff either operand is NaN. -/
def F64.pcmp : F64 → F64 → Option Ordering
  | .num a, .num b => some (if a < b then .lt else if b < a then .gt else .eq)
  | _, _ => none

/-! ## String helpers (Rust `str::contains` etc. over char lists) -/

/-- `p` is a leading segment of `s` (char-by-char). -/
def hasPfxL : List Char → List Char → Bool
  | [], _ => true
  | _ :: _, [] => false
  | p :: ps, c :: cs => p = c && hasPfxL ps cs

/-- `pat` occurs contiguously inside `s`. -/
def hasSubL : List Char → List Char → Bool
  | pat, [] => pat.isEmpty
  | pat, c :: cs => hasPfxL pat (c :: cs) || hasSubL pat cs

/-- Rust `str::contains(pat)` (substring containment). -/
def strContainsSub (s pat : String) : Bool :=
  hasSubL pat.toList s.toList

/-- Rust `str::trim` (whitespace from both ends). -/
def strTrim (s : String) : String :=
  ⟨((s.data.dropWhile Char.isWhitespace).reverse.dropWhile Char.isWhitespace).reverse⟩

/-- Rust `str::to_lowercase` (ASCII letters; the code only lowercases before
matching the ASCII keyword "no", and CJK text is unaffected). -/
def strLower (s : String) : String :=
  ⟨s.data.map Char.toLower⟩

def strIsEmpty (s : String) : Bool :=
  s.data.isEmpty

def splitPAux (p : Char → Bool) : List Char → List Char → List (List Char)
  | [], acc => [acc.reverse]
  | c :: cs, acc =>
    if p c then acc.reverse :: splitPAux p cs [] else splitPAux p cs (c :: acc)

/-- Rust `str::split(|c| ...)` (keeps empty parts, total parts = seps + 1). -/
def strSplitP (p : Char → Bool) (s : String) : List String :=
  (splitPAux p s.data []).map String.mk

def splitCommaSpaceAux : List Char → List Char → List (List Char)
  | [], acc => [acc.reverse]
  | ',' :: ' ' :: cs, acc => acc.reverse :: splitCommaSpaceAux cs []
  | c :: cs, acc => splitCommaSpaceAux cs (c :: acc)

/-- Rust `str::split(", ")`, specialised to the one string pattern used. -/
def strSplitCommaSpace (s : String) : List String :=
  (splitCommaSpaceAux s.data []).map String.mk

/-- Rust `str::replace(pat: char, to)`. -/
def strReplaceChar (pat : Char) (rep : String) (s : String) : String :=
  ⟨s.data.foldr (fun c acc => if c = pat then rep.data ++ acc else c :: acc) []⟩

def strStartsWith (s pre : String) : Bool :=
  hasPfxL pre.data s.data

/-- Rust `&s[2..]` on a string whose first two chars are ASCII (drop 2). -/
def strDropChars (n : ℕ) (s : String) : String :=
  ⟨s.data.drop n⟩

/-- Last path component: Rust `Path::file_name` / the
`split(|c| c == '/' || c == '\\').last()` idiom used for display names. -/
def lastComp (s : String) : String :=
  (strSplitP (fun c => c = '/' || c = '\\') s).getLastD s

/-! ## Calendar model (chrono `NaiveDate`) -/

/-- A calendar date, as chrono `NaiveDate` (proleptic Gregorian). -/
structure Ymd where
  y : ℤ
  m : ℕ
  d : ℕ
deriving DecidableEq

def isLeapYear (y : ℤ) : Bool :=
  y % 4 = 0 && (y % 100 ≠ 0 || y % 400 = 0)

def daysInMonth (y : ℤ) (m : ℕ) : ℕ :=
  if m = 1 then 31
  else if m = 2 then (if isLeapYear y then 29 else 28)
  else if m = 3 then 31
  else if m = 4 then 30
  else if m = 5 then 31
  else if m = 6 then 30
  else if m = 7 then 31
  else if m = 8 then 31
  else if m = 9 then 30
  else if m = 10 then 31
  else if m = 11 then 30
  else if m = 12 then 31
  else 0

/-- chrono `NaiveDate::from_ymd_opt` validity (year-range bound omitted:
the claims stay far inside chrono's ±262143 range). -/
def validYmd (dt : Ymd) : Bool :=
  1 ≤ dt.m && dt.m ≤ 12 && 1 ≤ dt.d && dt.d ≤ daysInMonth dt.y dt.m

/-- Days since 1970-01-01 of a civil date (Hinnant `days_from_civil`). -/
def daysFromCivil (dt : Ymd) : ℤ :=
  let y : ℤ := if dt.m ≤ 2 then dt.y - 1 else dt.y
  let era : ℤ := Int.fdiv y 400
  let yoe : ℤ := y - era * 400
  let mp : ℤ := if dt.m ≤ 2 then (dt.m : ℤ) + 9 else (dt.m : ℤ) - 3
  let doy : ℤ := Int.fdiv (153 * mp + 2) 5 + (dt.d : ℤ) - 1
  let doe : ℤ := yoe * 365 + Int.fdiv yoe 4 - Int.fdiv yoe 100 + doy
  era * 146097 + doe - 719468

/-- Civil date of a day count since 1970-01-01 (Hinnant `civil_from_days`). -/
def civilFromDays (z0 : ℤ) : Ymd :=
  let z : ℤ := z0 + 719468
  let era : ℤ := Int.fdiv z 146097
  let doe : ℤ := z - era * 146097
  let yoe : ℤ := Int.fdiv (doe - Int.fdiv doe 1460 + Int.fdiv doe 36524 - Int.fdiv doe 146096) 365
  let y : ℤ := yoe + era * 400
  let doy : ℤ := doe - (365 * yoe + Int.fdiv yoe 4 - Int.fdiv yoe 100)
  let mp : ℤ := Int.fdiv (5 * doy + 2) 153
  let d : ℤ := doy - Int.fdiv (153 * mp + 2) 5 + 1
  let m : ℤ := if mp < 10 then mp + 3 else mp - 9
  { y := if m ≤ 2 then y + 1 else y, m := m.toNat, d := d.toNat }

def natPad2 (n : ℕ) : String :=
  if n < 10 then "0" ++ toString n else toString n

def natPad4 (n : ℕ) : String :=
  if n < 10 then "000" ++ toString n
  else if n < 100 then "00" ++ toString n
  else if n < 1000 then "0" ++ toString n
  else toString n

/-- chrono `date.format("%Y-%m-%d")` (zero-padded). -/
def formatYmd (dt : Ymd) : String :=
  (if dt.y < 0 then "-" ++ natPad4 (-dt.y).toNat else natPad4 dt.y.toNat)
    ++ "-" ++ natPad2 dt.m ++ "-" ++ natPad2 dt.d

/-! ## chrono `parse_from_str` model

Format-directed parsing for the six format strings the program uses.
Numeric fields skip leading whitespace and scan digits greedily (year:
all available digits; month/day/hour/minute/second: at most two), literals
must match exactly, the whole input must be consumed, and the parsed fields
must form a valid date (`from_ymd_opt`) with in-range time fields. -/

inductive FmtTok where
  | year | mon | day | hour | minute | second
  | lit (c : Char)
  | sp
deriving DecidableEq

structure ParsedDt where
  y : Option ℤ := none
  m : Option ℕ := none
  d : Option ℕ := none
  hh : Option ℕ := none
  mi : Option ℕ := none
  ss : Option ℕ := none

def digitsVal (ds : List Char) : ℕ :=
  ds.foldl (fun a c => a * 10 + (c.toNat - 48)) 0

def dropWs (cs : List Char) : List Char :=
  cs.dropWhile Char.isWhitespace

/-- Scan 1..`max` digits greedily (`scan::number`); `max = 0` means unbounded. -/
def scanNum (max : ℕ) (cs : List Char) : Option (ℕ × List Char) :=
  let ds := if max = 0 then cs.takeWhile Char.isDigit
            else (cs.takeWhile Char.isDigit).take max
  if ds.isEmpty then none
  else some (digitsVal ds, cs.drop ds.length)

def runFmt : List FmtTok → List Char → ParsedDt → Option ParsedDt
  | [], [], p => some p
  | [], _ :: _, _ => none
  | .lit c :: ts, cs, p =>
    match cs with
    | [] => none
    | x :: rest => if x = c then runFmt ts rest p else none
  | .sp :: ts, cs, p => runFmt ts (dropWs cs) p
  | .year :: ts, cs, p =>
    match scanNum 0 (dropWs cs) with
    | none => none
    | some (n, rest) => runFmt ts rest { p with y := some (n : ℤ) }
  | .mon :: ts, cs, p =>
    match scanNum 2 (dropWs cs) with
    | none => none
    | some (n, rest) => runFmt ts rest { p with m := some n }
  | .day :: ts, cs, p =>
    match scanNum 2 (dropWs cs) with
    | none => none
    | some (n, rest) => runFmt ts rest { p with d := some n }
  | .hour :: ts, cs, p =>
    match scanNum 2 (dropWs cs) with
    | none => none
    | some (n, rest) => runFmt ts rest { p with hh := some n }
  | .minute :: ts, cs, p =>
    match scanNum 2 (dropWs cs) with
    | none => none
    | some (n, rest) => runFmt ts rest { p with mi := some n }
  | .second :: ts, cs, p =>
    match scanNum 2 (dropWs cs) with
    | none => none
    | some (n, rest) => runFmt ts rest { p with ss := some n }

def timeOk (n : Option ℕ) (bound : ℕ) : Bool :=
  match n with
  | none => true
  | some v => v < bound

/-- chrono `NaiveDate::parse_from_str s fmt` (time-of-day fields are range
checked and then discarded, as `Parsed::to_naive_date` does). -/
def parseWithFmt (fmt : List FmtTok) (s : String) : Option Ymd :=
  match runFmt fmt s.toList {} with
  | none => none
  | some p =>
    match p.y, p.m, p.d with
    | some y, some m, some d =>
      let dt : Ymd := ⟨y, m, d⟩
      if validYmd dt && timeOk p.hh 24 && timeOk p.mi 60 && timeOk p.ss 60 then
        some dt
      else none
    | _, _, _ => none

/-- Try a list of formats in order, first success wins. -/
def tryFmts (fmts : List (List FmtTok)) (s : String) : Option Ymd :=
  match fmts with
  | [] => none
  | f :: rest =>
    match parseWithFmt f s with
    | some dt => some dt
    | none => tryFmts rest s

def fmtYmdDash : List FmtTok := [.year, .lit '-', .mon, .lit '-', .day]
def fmtYmdSlash : List FmtTok := [.year, .lit '/', .mon, .lit '/', .day]
def fmtYmdCjk : List FmtTok := [.year, .lit '年', .mon, .lit '月', .day, .lit '日']
def fmtDmySlash : List FmtTok := [.day, .lit '/', .mon, .lit '/', .year]
def fmtMdySlash : List FmtTok := [.mon, .lit '/', .day, .lit '/', .year]
def fmtYmdDashTime : List FmtTok :=
  [.year, .lit '-', .mon, .lit '-', .day, .sp, .hour, .lit ':', .minute, .lit ':', .second]

/-! ## Spreadsheet cells (calamine `Data`) and the cell normalizer -/

/-- A raw spreadsheet cell. `date` is calamine `Data::DateTime` carrying its
`as_f64` serial value. -/
inductive Cell where
  | empty
  | str (s : String)
  | float (q : ℚ)
  | int (i : ℤ)
  | date (serial : ℚ)
deriving DecidableEq

/-- Display of a non-integral numeric cell. Rust renders a decimal expansion;
this placeholder rendering differs, but no claim inspects the display of a
non-integral numeric cell. Integral values render identically ("5", "-3"). -/
def ratDisplay (q : ℚ) : String :=
  if q.den = 1 then toString q.num else toString q.num ++ "/" ++ toString q.den

/-- calamine `Data::to_string()`. -/
def Cell.toStr : Cell → String
  | .empty => ""
  | .str s => s
  | .float q => ratDisplay q
  | .int i => toString i
  | .date q => ratDisplay q

/-- Rust `str::parse::<f64>()`. Accepts an optional sign, a case-insensitive
"nan", or a decimal mantissa with optional exponent; mantissa/exponent values
are kept as exact rationals (binary rounding not modelled). The "inf" and
"infinity" forms are not modelled (they yield `none`); no claim uses them. -/
def parseF64L (cs0 : List Char) : Option F64 :=
  let signNeg : Bool := match cs0 with
    | '-' :: _ => true
    | _ => false
  let cs : List Char := match cs0 with
    | '-' :: r => r
    | '+' :: r => r
    | r => r
  let low := cs.map Char.toLower
  if low = ['n', 'a', 'n'] then some .nan
  else if low = ['i', 'n', 'f'] || low = "infinity".toList then none
  else
    let ip := cs.takeWhile Char.isDigit
    let r1 := cs.dropWhile Char.isDigit
    let hasDot : Bool := match r1 with
      | '.' :: _ => true
      | _ => false
    let afterDot := if hasDot then r1.drop 1 else r1
    let fp := if hasDot then afterDot.takeWhile Char.isDigit else []
    let r2 := if hasDot then afterDot.dropWhile Char.isDigit else r1
    if ip.isEmpty && fp.isEmpty then none
    else
      let mant : ℚ := (digitsVal ip : ℚ) + (digitsVal fp : ℚ) / ((10 : ℚ) ^ fp.length)
      match r2 with
      | [] => some (.num (if signNeg then -mant else mant))
      | e :: r3 =>
        if e = 'e' || e = 'E' then
          let eneg : Bool := match r3 with
            | '-' :: _ => true
            | _ => false
          let r4 : List Char := match r3 with
            | '-' :: r => r
            | '+' :: r => r
            | r => r
          let ed := r4.takeWhile Char.isDigit
          if ed.isEmpty || !(r4.dropWhile Char.isDigit).isEmpty then none
          else
            let ev := digitsVal ed
            let scaled : ℚ := if eneg then mant / (10 : ℚ) ^ ev else mant * (10 : ℚ) ^ ev
            some (.num (if signNeg then -scaled else scaled))
        else none

def parseF64 (s : String) : Option F64 :=
  parseF64L s.toList

/-- `excel_parser::extract_number`: pull a number out of a cell; string cells
try a full parse first, then the leading run of digits / '.' / '-' characters
(Rust `char::is_numeric` also accepts non-ASCII Unicode digits, which are not
modelled; every claim input uses ASCII digits). -/
def extract_number : Cell → Option F64
  | .float f => some (.num f)
  | .int i => some (.num (i : ℚ))
  | .str s0 =>
    let s := strTrim s0
    if strIsEmpty s then none
    else
      match parseF64 s with
      | some f => some f
      | none =>
        let numStr := s.toList.takeWhile (fun c => c.isDigit || c = '.' || c = '-')
        parseF64L numStr
  | _ => none

/-- `i64` cast of an `f64` (`as i64`): truncation toward zero. -/
def ratTrunc (q : ℚ) : ℤ :=
  if 0 ≤ q then q.floor else q.ceil

/-- `excel_parser::excel_serial_to_date`: 1899-12-30 plus `serial` days,
formatted "%Y-%m-%d". -/
def excel_serial_to_date (serial : ℤ) : String :=
  formatYmd (civilFromDays (daysFromCivil ⟨1899, 12, 30⟩ + serial))

/-- `excel_parser::normalize_date`: re-render under the first matching of
five date formats, else return the input unchanged. -/
def normalize_date (s : String) : String :=
  match tryFmts [fmtYmdDash, fmtYmdSlash, fmtYmdCjk, fmtDmySlash, fmtMdySlash] s with
  | some dt => formatYmd dt
  | none => s

/-- `excel_parser::excel_date_to_string`. -/
def excel_date_to_string : Cell → String
  | .date dt => excel_serial_to_date (ratTrunc dt)
  | .float f => excel_serial_to_date (ratTrunc f)
  | .int i => excel_serial_to_date i
  | .str s => normalize_date (strTrim s)
  | .empty => ""

/-! ## Data model (`models.rs`) -/

/-- `models::DeliveryItem`. -/
structure DeliveryItem where
  product_name : String
  spec : String
  quantity : F64
  unit : String
  unit_price : F64
  amount : F64
  customer : String
  date : String
  delivery_order_no : String
  order_no : String
  source_file : String
  customer_type : String
deriving DecidableEq

/-- `models::FileValidationError` (a validation issue: file + message). -/
structure FileValidationError where
  file : String
  error : String
deriving DecidableEq

/-- `models::SummaryItem`. -/
structure SummaryItem where
  product_name : String
  spec : String
  unit : String
  quantity : F64
  average_price : F64
  amount : F64
  customers : String
deriving DecidableEq

/-- Generic association-list lookup (models `HashMap::get`). -/
def alFind {κ α : Type} [DecidableEq κ] : List (κ × α) → κ → Option α
  | [], _ => none
  | e :: rest, k => if e.1 = k then some e.2 else alFind rest k

/-- Generic association-list value update at a present key. -/
def alUpdate {κ α : Type} [DecidableEq κ] (m : List (κ × α)) (k : κ) (f : α → α) :
    List (κ × α) :=
  m.map (fun e => if e.1 = k then (e.1, f e.2) else e)

/-! ## Metadata extractor (`excel_parser.rs` lines 23–102)

Scans rows 0..9, cell by cell; four independent first-capture searches for
customer name, document date, delivery order number and header-level
purchase-order number. -/

structure MetaVals where
  customer_name : String := ""
  date : String := ""
  delivery_order_no : String := ""
  header_order_no : String := ""
deriving DecidableEq

def splitColon (s : String) : List String :=
  strSplitP (fun c => c = ':' || c = '：') s

/-- `parts.len() > 1 && !parts[1].trim().is_empty()`, yielding `parts[1].trim()`. -/
def part1NonEmpty (parts : List String) : Option String :=
  match parts.get? 1 with
  | some p =>
    let t := strTrim p
    if strIsEmpty t then none else some t
  | none => none

def metaCellCustomer (row : List Cell) (colIdx : ℕ) (cellStr : String) (m : MetaVals) :
    MetaVals :=
  if (strContainsSub cellStr "客户" || strContainsSub cellStr "单位")
      && strIsEmpty m.customer_name then
    match part1NonEmpty (splitColon cellStr) with
    | some v => { m with customer_name := v }
    | none =>
      match row.get? (colIdx + 1) with
      | some next =>
        let val := strTrim next.toStr
        if strIsEmpty val then m else { m with customer_name := val }
      | none => m
  else m

def metaCellDate (row : List Cell) (colIdx : ℕ) (cellStr : String) (m : MetaVals) :
    MetaVals :=
  if strContainsSub cellStr "日期" && strIsEmpty m.date then
    match part1NonEmpty (splitColon cellStr) with
    | some v => { m with date := normalize_date v }
    | none =>
      match row.get? (colIdx + 1) with
      | some next => { m with date := excel_date_to_string next }
      | none => m
  else m

def splitNoSeps (s : String) : List String :=
  strSplitP (fun c => c = ':' || c = '：' || c = '.' || c = ' ') s

/-- The token walk of strategy (a) for the delivery order number: find a part
equal (trimmed, lowercased) to "no"/"单号" whose successor part is non-empty. -/
def findNoToken : List String → Option String
  | [] => none
  | [_] => none
  | p :: q :: rest =>
    let pl := strLower (strTrim p)
    if pl = "no" || pl = "单号" then
      let v := strTrim q
      if strIsEmpty v then findNoToken (q :: rest) else some v
    else findNoToken (q :: rest)

def metaCellNo (row : List Cell) (colIdx : ℕ) (cellStr cellLower : String) (m : MetaVals) :
    MetaVals :=
  if (strContainsSub cellLower "no" || strContainsSub cellLower "单号")
      && strIsEmpty m.delivery_order_no then
    let m1 : MetaVals :=
      match findNoToken (splitNoSeps cellStr) with
      | some v => { m with delivery_order_no := v }
      | none => m
    let m2 : MetaVals :=
      if strIsEmpty m1.delivery_order_no && strStartsWith cellLower "no" then
        let val := strTrim (strDropChars 2 cellStr)
        if strIsEmpty val then m1 else { m1 with delivery_order_no := val }
      else m1
    if strIsEmpty m2.delivery_order_no then
      match row.get? (colIdx + 1) with
      | some next =>
        let nextStr := strTrim next.toStr
        if strIsEmpty nextStr then m2 else { m2 with delivery_order_no := nextStr }
      | none => m2
    else m2
  else m

def metaCellOrderNo (row : List Cell) (colIdx : ℕ) (cellStr : String) (m : MetaVals) :
    MetaVals :=
  if strContainsSub cellStr "订单号" && strIsEmpty m.header_order_no then
    match part1NonEmpty (splitColon cellStr) with
    | some v => { m with header_order_no := v }
    | none =>
      match row.get? (colIdx + 1) with
      | some next =>
        let val := strTrim next.toStr
        if strIsEmpty val then m else { m with header_order_no := val }
      | none => m
  else m

def metaCellStep (row : List Cell) (m : MetaVals) (ic : ℕ × Cell) : MetaVals :=
  let cellStr := strTrim ic.2.toStr
  let cellLower := strLower cellStr
  metaCellOrderNo row ic.1 cellStr
    (metaCellNo row ic.1 cellStr cellLower
      (metaCellDate row ic.1 cellStr
        (metaCellCustomer row ic.1 cellStr m)))

def metaRowStep (m : MetaVals) (row : List Cell) : MetaVals :=
  row.enum.foldl (metaCellStep row) m

/-- The rows 0..9 metadata scan. -/
def metaScan (g : List (List Cell)) : MetaVals :=
  (g.take 10).foldl metaRowStep {}

/-! ## Header locator (`excel_parser.rs` lines 104–143) -/

/-- The label-family → column-index map (`col_map`), with fixed key set. -/
structure ColMap where
  product : Option ℕ := none
  spec : Option ℕ := none
  quantity : Option ℕ := none
  unit : Option ℕ := none
  price : Option ℕ := none
  amount : Option ℕ := none
  order_no : Option ℕ := none
deriving DecidableEq

def cellIsProductKw (s : String) : Bool :=
  strContainsSub s "货名" || strContainsSub s "货品名称" || strContainsSub s "Description"

/-- One cell of the header scan: the `if`/`else if` keyword chain; only the
product family sets `found_header`. -/
def colCellStep (st : ColMap × Bool) (ic : ℕ × Cell) : ColMap × Bool :=
  let s := ic.2.toStr
  let i := ic.1
  let cm := st.1
  if cellIsProductKw s then ({ cm with product := some i }, true)
  else if strContainsSub s "规格" then ({ cm with spec := some i }, st.2)
  else if strContainsSub s "数量" || strContainsSub s "Quantity" then
    ({ cm with quantity := some i }, st.2)
  else if strContainsSub s "单位" || strContainsSub s "unit" then
    ({ cm with unit := some i }, st.2)
  else if strContainsSub s "单价" || strContainsSub s "Unit Price"
      || strContainsSub s "价格" || strContainsSub s "Price" then
    ({ cm with price := some i }, st.2)
  else if strContainsSub s "金额" || strContainsSub s "Amount" || strContainsSub s "总价" then
    ({ cm with amount := some i }, st.2)
  else if strContainsSub s "订单号" || strContainsSub s "PO" then
    ({ cm with order_no := some i }, st.2)
  else st

def headerRowScan (cm : ColMap) (row : List Cell) : ColMap × Bool :=
  row.enum.foldl colCellStep (cm, false)

def headerScanAux : ℕ → List (List Cell) → ColMap → ColMap × ℕ
  | _, [], cm => (cm, 8)
  | i, row :: rest, cm =>
    let res := headerRowScan cm row
    if res.2 then (res.1, i + 1) else headerScanAux (i + 1) rest res.1

/-- The rows 0..14 header scan: returns the column map and `data_start_row`
(default 8 when no row carries a product keyword). -/
def headerScan (g : List (List Cell)) : ColMap × ℕ :=
  headerScanAux 0 (g.take 15) {}

/-! ## Record extractor (`excel_parser.rs` lines 137–231) -/

/-- The resolved column indices (`idx_product` … `idx_order_no`). -/
structure ColIdx where
  p : ℕ
  s : ℕ
  q : ℕ
  u : ℕ
  pr : Option ℕ
  am : Option ℕ
  ono : Option ℕ
deriving DecidableEq

def colIdxOf (cm : ColMap) : ColIdx :=
  ⟨cm.product.getD 0, cm.spec.getD 2, cm.quantity.getD 4, cm.unit.getD 5,
    cm.price, cm.amount, cm.order_no⟩

def isTotalsRow (row : List Cell) : Bool :=
  let fc := match row.get? 0 with
    | some c => c.toStr
    | none => ""
  strContainsSub fc "合计" || strContainsSub fc "送货单位"

/-- Product name of a row: newline → space, quotes stripped, trimmed;
`none` when the column is missing or the result is empty. -/
def productNameOf (ci : ColIdx) (row : List Cell) : Option String :=
  match row.get? ci.p with
  | none => none
  | some c =>
    let s := strTrim (strReplaceChar '"' "" (strReplaceChar '\n' " " c.toStr))
    if strIsEmpty s then none else some s

def quantityOf (ci : ColIdx) (row : List Cell) : Option F64 :=
  (row.get? ci.q).bind extract_number

def specOf (ci : ColIdx) (row : List Cell) : String :=
  match row.get? ci.s with
  | some c => strTrim c.toStr
  | none => ""

def unitOf (ci : ColIdx) (row : List Cell) : String :=
  match row.get? ci.u with
  | some c => strTrim c.toStr
  | none => ""

def priceOf (ci : ColIdx) (row : List Cell) : F64 :=
  ((ci.pr.bind (fun i => row.get? i)).bind extract_number).getD (.num 0)

def amountOf (ci : ColIdx) (row : List Cell) : F64 :=
  ((ci.am.bind (fun i => row.get? i)).bind extract_number).getD (.num 0)

/-- Row-scoped purchase-order-number resync: a cell containing "订单号" with a
non-empty value after the colon overwrites `header_order_no` only when the
latter is empty or already equal. -/
def resyncCell (hon : String) (c : Cell) : String :=
  let s := c.toStr
  if strContainsSub s "订单号" then
    match part1NonEmpty (splitColon s) with
    | some extracted => if strIsEmpty hon || hon = extracted then extracted else hon
    | none => hon
  else hon

def resyncRow (row : List Cell) (hon : String) : String :=
  row.foldl resyncCell hon

/-- Row order number: the mapped order-number column if present and non-empty,
else the (resynced) header-level purchase-order number. -/
def rowOrderNo (ci : ColIdx) (row : List Cell) (hon : String) : String :=
  match ci.ono with
  | some i =>
    match row.get? i with
    | some c =>
      let v := strTrim c.toStr
      if strIsEmpty v then hon else v
    | none => hon
  | none => hon

def mkItem (path ctype : String) (mv : MetaVals) (ci : ColIdx) (row : List Cell)
    (hon2 : String) : DeliveryItem :=
  { product_name := (productNameOf ci row).getD ""
    spec := specOf ci row
    quantity := (quantityOf ci row).getD (.num 0)
    unit := unitOf ci row
    unit_price := priceOf ci row
    amount := amountOf ci row
    customer := mv.customer_name
    date := mv.date
    delivery_order_no := mv.delivery_order_no
    order_no := rowOrderNo ci row hon2
    source_file := path
    customer_type := ctype }

/-- The data-row walk: stop at a totals row, skip rows with empty product name
or unparsable quantity, thread `header_order_no` through the resync. -/
def extractLoop (path ctype : String) (mv : MetaVals) (ci : ColIdx) :
    List (List Cell) → String → List DeliveryItem
  | [], _ => []
  | row :: rest, hon =>
    if isTotalsRow row then []
    else if (productNameOf ci row).isSome && (quantityOf ci row).isSome then
      let hon2 := resyncRow row hon
      mkItem path ctype mv ci row hon2 :: extractLoop path ctype mv ci rest hon2
    else extractLoop path ctype mv ci rest hon

/-- `excel_parser::extract_delivery_data`, parameterised by the first
worksheet's grid (the workbook I/O is outside the model). -/
def extract_delivery_data (g : List (List Cell)) (path ctype : String) :
    List DeliveryItem :=
  let mv := metaScan g
  let hs := headerScan g
  let ci := colIdxOf hs.1
  extractLoop path ctype mv ci (g.drop hs.2) mv.header_order_no

/-! ## Reconciliation engine (`data_processor.rs`)

`validate_delivery_data` is embedded over the per-file extraction outcomes:
each input file comes with either its record batch or its extraction failure
message (the workbook I/O sits outside the model). -/

/-- `data_processor::validate_date_str` (three accepted formats). -/
def validate_date_str (s : String) : Bool :=
  (tryFmts [fmtYmdDash, fmtYmdSlash, fmtYmdCjk] s).isSome

/-- `data_processor::parse_date` (same three formats, returning the date). -/
def parse_date (s : String) : Option Ymd :=
  tryFmts [fmtYmdDash, fmtYmdSlash, fmtYmdCjk] s

def sepDashDot (c : Char) : Bool :=
  c = '-' || c = '.'

/-- Regex `(\d{4})` at the current position: exactly four digits. -/
def matchD4 (cs : List Char) : Option (ℕ × List Char) :=
  match cs with
  | a :: b :: c :: d :: rest =>
    if a.isDigit && b.isDigit && c.isDigit && d.isDigit then
      some (digitsVal [a, b, c, d], rest)
    else none
  | _ => none

/-- Regex `[-.]` at the current position. -/
def matchSep (cs : List Char) : Option (List Char) :=
  match cs with
  | c :: rest => if sepDashDot c then some rest else none
  | [] => none

/-- Regex `(\d{1,2})[-.]`: greedy two digits, backtracking to one. (If the
two-digit alternative matches, the one-digit one cannot, since its separator
position holds a digit — so no deeper backtracking is needed.) -/
def matchD12Sep (cs : List Char) : Option (ℕ × List Char) :=
  match cs with
  | a :: b :: c :: rest =>
    if a.isDigit && b.isDigit && sepDashDot c then some (digitsVal [a, b], rest)
    else if a.isDigit && sepDashDot b then some (digitsVal [a], c :: rest)
    else none
  | [a, b] => if a.isDigit && sepDashDot b then some (digitsVal [a], []) else none
  | _ => none

/-- Trailing regex `(\d{1,2})`: greedy two digits, else one. -/
def matchD12 (cs : List Char) : Option ℕ :=
  match cs with
  | a :: b :: _ =>
    if a.isDigit && b.isDigit then some (digitsVal [a, b])
    else if a.isDigit then some (digitsVal [a]) else none
  | [a] => if a.isDigit then some (digitsVal [a]) else none
  | [] => none

def tryDateAt (cs : List Char) : Option (ℕ × ℕ × ℕ) :=
  match matchD4 cs with
  | none => none
  | some (y, r1) =>
    match matchSep r1 with
    | none => none
    | some r2 =>
      match matchD12Sep r2 with
      | none => none
      | some (m, r3) =>
        match matchD12 r3 with
        | none => none
        | some d => some (y, m, d)

/-- Leftmost regex match: try each start position left to right. -/
def scanDate : List Char → Option (ℕ × ℕ × ℕ)
  | [] => none
  | c :: cs =>
    match tryDateAt (c :: cs) with
    | some r => some r
    | none => scanDate cs

/-- `data_processor::extract_date_from_filename`: first
`(\d{4})[-.](\d{1,2})[-.](\d{1,2})` match, then `from_ymd_opt`. -/
def extract_date_from_filename (filename : String) : Option Ymd :=
  match scanDate filename.data with
  | none => none
  | some (y, m, d) =>
    let dt : Ymd := ⟨(y : ℤ), m, d⟩
    if validYmd dt then some dt else none

def dateErrMsg (d : String) : String :=
  "日期错误 '" ++ d ++ "': 无法识别的日期格式或日期无效"

def mismatchMsg (fd cd : Ymd) : String :=
  "日期不一致: 文件名日期 (" ++ formatYmd fd ++ ") 与内容日期 (" ++ formatYmd cd ++ ") 不同"

def dupMsg (cust ono exFile : String) : String :=
  "送货单号重复: 客户 '" ++ cust ++ "' 的单号 '" ++ ono ++ "' 已在文件 '"
    ++ lastComp exFile ++ "' 中存在"

def parseFailMsg (e : String) : String :=
  "解析失败: " ++ e

def emptyFileMsg : String :=
  "该文件未包含有效数据或格式不匹配"

/-- The mutable state of `validate_delivery_data`'s file loop. -/
structure VState where
  all_items : List DeliveryItem
  errors : List FileValidationError
  warnings : List FileValidationError
  omap : List ((String × String) × String)
deriving DecidableEq

/-- Date phase of one record: on an invalid date push an error and set the
file's error flag; on a valid date, warn when a filename-derived date exists
and differs from the content date. -/
def dateStep (file : String) (fdate : Option Ymd) (st : VState × Bool)
    (item : DeliveryItem) : VState × Bool :=
  if validate_date_str item.date then
    match fdate, parse_date item.date with
    | some fd, some cd =>
      if fd ≠ cd then
        ({ st.1 with warnings := st.1.warnings ++ [⟨file, mismatchMsg fd cd⟩] }, st.2)
      else st
    | _, _ => st
  else
    ({ st.1 with errors := st.1.errors ++ [⟨file, dateErrMsg item.date⟩] }, true)

/-- Duplicate-order-number phase of one record: ignore empty order numbers;
a (customer, order-no) pair already registered under a different file yields
a warning, an unregistered pair is registered under the current file. -/
def dupStep (file : String) (s2 : VState) (item : DeliveryItem) : VState :=
  if strIsEmpty item.delivery_order_no then s2
  else
    let k := (item.customer, item.delivery_order_no)
    match alFind s2.omap k with
    | some exFile =>
      if exFile ≠ file then
        { s2 with warnings :=
            s2.warnings ++ [⟨file, dupMsg item.customer item.delivery_order_no exFile⟩] }
      else s2
    | none => { s2 with omap := s2.omap ++ [(k, file)] }

/-- One record of one file: date validation, then the duplicate check. -/
def processItem (file : String) (fdate : Option Ymd) (st : VState × Bool)
    (item : DeliveryItem) : VState × Bool :=
  let ad := dateStep file fdate st item
  (dupStep file ad.1 item, ad.2)

/-- One file of the loop: parse failure → error; empty batch → warning;
otherwise run the record loop and accept the batch iff no error was flagged. -/
def processFile (st : VState) (f : String × Except String (List DeliveryItem)) : VState :=
  match f.2 with
  | .error e => { st with errors := st.errors ++ [⟨f.1, parseFailMsg e⟩] }
  | .ok items =>
    if items.isEmpty then { st with warnings := st.warnings ++ [⟨f.1, emptyFileMsg⟩] }
    else
      let fdate := extract_date_from_filename (lastComp f.1)
      let r := items.foldl (processItem f.1 fdate) (st, false)
      if r.2 then r.1 else { r.1 with all_items := r.1.all_items ++ items }

/-- Lexicographic char-list order = Rust byte order on UTF-8 strings. -/
def strLtL : List Char → List Char → Bool
  | [], [] => false
  | [], _ :: _ => true
  | _ :: _, [] => false
  | a :: xs, b :: ys => if a < b then true else if b < a then false else strLtL xs ys

def strCmpB (a b : String) : Ordering :=
  if strLtL a.data b.data then .lt else if strLtL b.data a.data then .gt else .eq

/-- Rust `a.file.cmp(&b.file).then(a.error.cmp(&b.error))`. -/
def fveCmp (a b : FileValidationError) : Ordering :=
  (strCmpB a.file b.file).then (strCmpB a.error b.error)

/-- Stable insertion for the warnings sort (insert after equal keys). -/
def insFVE (x : FileValidationError) : List FileValidationError → List FileValidationError
  | [] => [x]
  | y :: ys =>
    match fveCmp y x with
    | .gt => x :: y :: ys
    | _ => y :: insFVE x ys

/-- Rust `Vec::sort_by` with the (file, error) comparator (stable sort). -/
def sortFVE (l : List FileValidationError) : List FileValidationError :=
  l.foldl (fun acc x => insFVE x acc) []

def dedupAdj (x : FileValidationError) :
    List FileValidationError → List FileValidationError
  | [] => []
  | y :: ys =>
    if y.file = x.file && y.error = x.error then dedupAdj x ys else y :: dedupAdj y ys

/-- Rust `Vec::dedup_by(|a, b| a.file == b.file && a.error == b.error)`
(drop an element equal to the last kept one). -/
def dedupFVE : List FileValidationError → List FileValidationError
  | [] => []
  | x :: xs => x :: dedupAdj x xs

/-- `data_processor::validate_delivery_data` over per-file extraction
outcomes: returns (accepted records, errors, sorted+deduplicated warnings). -/
def validate_delivery_data (files : List (String × Except String (List DeliveryItem))) :
    List DeliveryItem × List FileValidationError × List FileValidationError :=
  let st := files.foldl processFile ⟨[], [], [], []⟩
  (st.all_items, st.errors, dedupFVE (sortFVE st.warnings))

/-! ## Aggregator (`data_processor.rs` lines 216–311) -/

def sKey (it : DeliveryItem) : String × String × String :=
  (it.product_name, it.spec, it.unit)

/-- The customer-list append of `generate_summary`'s `and_modify`: skip empty
customers, split the accumulated string on ", ", append if not yet present. -/
def custAppend (cs cust : String) : String :=
  if strIsEmpty cust then cs
  else
    let customers := strSplitCommaSpace cs
    if customers.any (fun c => c = cust) then cs
    else if strIsEmpty cs then cust
    else cs ++ ", " ++ cust

def updSummary (s : SummaryItem) (it : DeliveryItem) : SummaryItem :=
  { s with
    quantity := s.quantity.add it.quantity
    amount := s.amount.add it.amount
    customers := custAppend s.customers it.customer }

def initSummary (it : DeliveryItem) : SummaryItem :=
  { product_name := it.product_name
    spec := it.spec
    unit := it.unit
    quantity := it.quantity
    average_price := .num 0
    amount := it.amount
    customers := it.customer }

/-- The grouping fold of `generate_summary`. The Rust `HashMap` iterates in
arbitrary order; the model fixes first-insertion order (the final sort makes
every claim-relevant observation order-insensitive). -/
def summaryFold (items : List DeliveryItem) :
    List ((String × String × String) × SummaryItem) :=
  items.foldl
    (fun m it =>
      let k := sKey it
      match alFind m k with
      | some _ => alUpdate m k (fun s => updSummary s it)
      | none => m ++ [(k, initSummary it)])
    []

/-- The average-price post-pass (only when quantity > 0). -/
def setAvg (s : SummaryItem) : SummaryItem :=
  if s.quantity.gtZero then
    { s with average_price := ((s.amount.div s.quantity).mul (.num 100)).rnd.div (.num 100) }
  else s

/-- Stable insertion for `sort_by(|a, b| b.amount.partial_cmp(&a.amount).unwrap())`;
`Except.error ()` models the `unwrap` panic on a NaN comparison. -/
def insByAmount (x : SummaryItem) :
    List SummaryItem → Except Unit (List SummaryItem)
  | [] => .ok [x]
  | y :: ys =>
    match F64.pcmp x.amount y.amount with
    | none => .error ()
    | some .gt => .ok (x :: y :: ys)
    | some _ =>
      match insByAmount x ys with
      | .ok r => .ok (y :: r)
      | .error e => .error e

def sortByAmountAux : List SummaryItem → List SummaryItem → Except Unit (List SummaryItem)
  | acc, [] => .ok acc
  | acc, x :: xs =>
    match insByAmount x acc with
    | .ok acc2 => sortByAmountAux acc2 xs
    | .error e => .error e

/-- `data_processor::generate_summary`; `Except.error ()` models a panic of
the amount sort's `unwrap`. -/
def generate_summary (items : List DeliveryItem) : Except Unit (List SummaryItem) :=
  let vals := (summaryFold items).map (fun e => setAvg e.2)
  sortByAmountAux [] vals

def upToSecondDash (cs : List Char) : Option String :=
  let before := cs.takeWhile (fun c => c ≠ '-')
  let rest0 := cs.dropWhile (fun c => c ≠ '-')
  match rest0 with
  | [] => none
  | _ :: rest =>
    let before2 := rest.takeWhile (fun c => c ≠ '-')
    if rest.any (fun c => c = '-') then some ⟨before ++ '-' :: before2⟩ else none

/-- `data_processor::extract_year_month`: four formats, then the substring up
to the second '-', then the localized sentinel "未知" ("unknown"). -/
def extract_year_month (s : String) : String :=
  match tryFmts [fmtYmdDash, fmtYmdSlash, fmtYmdCjk, fmtYmdDashTime] s with
  | some dt => toString dt.y ++ "-" ++ natPad2 dt.m
  | none =>
    match upToSecondDash s.data with
    | some pre => pre
    | none => "未知"

/-- `data_processor::group_by_customer_month` (HashMap modelled in
first-insertion key order). -/
def group_by_customer_month (items : List DeliveryItem) :
    List ((String × String) × List DeliveryItem) :=
  items.foldl
    (fun m it =>
      let k := (it.customer, extract_year_month it.date)
      match alFind m k with
      | some _ => alUpdate m k (fun l => l ++ [it])
      | none => m ++ [(k, [it])])
    []

/-! ## Claim-support definitions -/

deriving instance DecidableEq for Except

/-- A row carries a product-name keyword (this, and only this, is what sets
`found_header` in the source's header scan). -/
def rowHasProductKw (row : List Cell) : Bool :=
  row.any (fun c => cellIsProductKw c.toStr)

/-- Spec-side qualifying condition of claim C1 (stated from the claim's words,
for comparison): some cell matches a keyword of ANY of the seven label
families. -/
def specRowQualifies (row : List Cell) : Bool :=
  row.any (fun c =>
    cellIsProductKw c.toStr || strContainsSub c.toStr "规格"
    || strContainsSub c.toStr "数量" || strContainsSub c.toStr "Quantity"
    || strContainsSub c.toStr "单位" || strContainsSub c.toStr "unit"
    || strContainsSub c.toStr "单价" || strContainsSub c.toStr "Unit Price"
    || strContainsSub c.toStr "价格" || strContainsSub c.toStr "Price"
    || strContainsSub c.toStr "金额" || strContainsSub c.toStr "Amount"
    || strContainsSub c.toStr "总价" || strContainsSub c.toStr "订单号"
    || strContainsSub c.toStr "PO")

/-- Column-map accumulation over a list of rows (no early stop). -/
def foldCmRows (cm : ColMap) (rows : List (List Cell)) : ColMap :=
  rows.foldl (fun m r => (headerRowScan m r).1) cm

/-- Index of the first row satisfying `p` (declarative counterpart of the
header scan's early exit). -/
def firstIdxP (p : List Cell → Bool) : List (List Cell) → Option ℕ
  | [] => none
  | r :: rest => if p r then some 0 else (firstIdxP p rest).map (· + 1)

/-- Declarative result of the header scan, by cases on whether a header row
(product-keyword row) exists: column maps accumulate over all rows up to and
including the header row, and data-start-row is its index (offset by `base`)
plus 1, defaulting to 8. -/
def headerChoice (cm : ColMap) (rows : List (List Cell)) (base : ℕ) :
    Option ℕ → ColMap × ℕ
  | some j => (foldCmRows cm (rows.take (j + 1)), base + j + 1)
  | none => (foldCmRows cm rows, 8)

/-- Declarative per-file error list: parse failure, or one date error per
record whose date matches no accepted format. -/
def fileErrorsOf (f : String × Except String (List DeliveryItem)) :
    List FileValidationError :=
  match f.2 with
  | .error e => [⟨f.1, parseFailMsg e⟩]
  | .ok items =>
    (items.filter (fun it => !validate_date_str it.date)).map
      (fun it => ⟨f.1, dateErrMsg it.date⟩)

/-- Declarative per-file accepted batch: the whole batch iff no record has an
invalid date, else nothing. -/
def fileAcceptedOf (f : String × Except String (List DeliveryItem)) :
    List DeliveryItem :=
  match f.2 with
  | .error _ => []
  | .ok items =>
    if items.any (fun it => !validate_date_str it.date) then [] else items

/-- Gating predicate of the record extractor: non-empty (cleaned) product
name and parseable quantity. -/
def qualRow (ci : ColIdx) (row : List Cell) : Bool :=
  (productNameOf ci row).isSome && (quantityOf ci row).isSome

/-- Declarative emission: one record per (already filtered) qualifying row,
threading the purchase-order-number resync. -/
def emitQual (path ctype : String) (mv : MetaVals) (ci : ColIdx) :
    List (List Cell) → String → List DeliveryItem
  | [], _ => []
  | row :: rest, hon =>
    let hon2 := resyncRow row hon
    mkItem path ctype mv ci row hon2 :: emitQual path ctype mv ci rest hon2

/-- The data region: rows from data-start-row up to (excluding) the first
totals row. -/
def dataRegion (rows : List (List Cell)) : List (List Cell) :=
  rows.takeWhile (fun r => !isTotalsRow r)

/-- Key of a summary row. -/
def sKeyS (s : SummaryItem) : String × String × String :=
  (s.product_name, s.spec, s.unit)

/-- Total quantity of the records with a given key. -/
def sumQtyAt (items : List DeliveryItem) (k : String × String × String) : F64 :=
  (items.filter (fun it => sKey it = k)).foldl (fun a it => a.add it.quantity) (.num 0)

/-- Total amount of the records with a given key. -/
def sumAmtAt (items : List DeliveryItem) (k : String × String × String) : F64 :=
  (items.filter (fun it => sKey it = k)).foldl (fun a it => a.add it.amount) (.num 0)

/-- Deduplicated, first-seen-ordered, ", "-joined customers of the records
with a given key. -/
def custJoinAt (items : List DeliveryItem) (k : String × String × String) : String :=
  (items.filter (fun it => sKey it = k)).foldl (fun cs it => custAppend cs it.customer) ""

/-- The summary is sorted descending by total amount: no later row's amount
compares greater (the comparator never answers `lt` on an in-order pair). -/
def sortedDescAmount (l : List SummaryItem) : Prop :=
  l.Pairwise (fun a b => F64.pcmp a.amount b.amount ≠ some Ordering.lt)

/-- Strict (file, message) lexicographic order on validation issues. -/
def fveLtP (a b : FileValidationError) : Prop :=
  strLtL a.file.data b.file.data = true
    ∨ (a.file = b.file ∧ strLtL a.error.data b.error.data = true)

/-- Non-strict counterpart: the sort comparator does not say `gt`. -/
def fveLeP (a b : FileValidationError) : Prop :=
  fveCmp a b ≠ .gt

/-! Concrete items used by the closed example/counterexample theorems. -/

def baseItem : DeliveryItem :=
  { product_name := "P", spec := "S", quantity := .num 1, unit := "kg",
    unit_price := .num 0, amount := .num 10, customer := "C", date := "2024-01-02",
    delivery_order_no := "", order_no := "", source_file := "f",
    customer_type := "月结客户" }

def c4r1 : DeliveryItem :=
  { baseItem with
    product_name := "A"
    spec := "spec1"
    unit := "kg"
    quantity := .num 10
    amount := .num 100
    customer := "X" }

def c4r2 : DeliveryItem :=
  { baseItem with
    product_name := "A"
    spec := "spec1"
    unit := "kg"
    quantity := .num 5
    amount := .num 60
    customer := "Y" }

def c5bad : DeliveryItem :=
  { baseItem with date := "bad" }

def c6w1 : DeliveryItem :=
  { baseItem with delivery_order_no := "DN-001", date := "2024-01-01" }

def c9i1 : DeliveryItem :=
  { baseItem with delivery_order_no := "N1" }

def c9i2 : DeliveryItem :=
  { baseItem with date := "bad" }

def c9j1 : DeliveryItem :=
  { baseItem with delivery_order_no := "N1", source_file := "g" }

def c8item : DeliveryItem :=
  { baseItem with date := "abc" }

def c10a : DeliveryItem :=
  { baseItem with product_name := "A", amount := F64.nan }

def c10b : DeliveryItem :=
  { baseItem with product_name := "B", amount := .num 1 }

/-! ## Theorems -/

set_option maxRecDepth 10000

/-- C1, counterexample. The claim says a row qualifies as the header row if
any cell matches ANY of the seven label families, with first match winning
per family. On the grid `[[数量], [货名]]` row 0 matches the quantity family,
so the claim predicts data-start-row 0 + 1 = 1; the code produces 2 (only a
product-name keyword qualifies a row). On `[[货名, 数量, 数量x]]` the claim
predicts quantity column 1 (first match); the code records column 2 (inserts
overwrite). On `[[规格], [货名]]` the spec column is recorded from row 0,
which is not the header row. -/
theorem c1_counterexample :
    specRowQualifies [Cell.str "数量"] = true
      ∧ (headerScan [[Cell.str "数量"], [Cell.str "货名"]]).2 = 2
      ∧ (2 : ℕ) ≠ 0 + 1
      ∧ rowHasProductKw [Cell.str "货名", Cell.str "数量", Cell.str "数量x"] = true
      ∧ (headerScan [[Cell.str "货名", Cell.str "数量", Cell.str "数量x"]]).1.quantity = some 2
      ∧ (headerScan [[Cell.str "规格"], [Cell.str "货名"]]).1.spec = some 0 := by
  decide

/-- C5, counterexample. The claim says errors are deduplicated by exact
(file, message) equality before being reported; a file with two records
carrying the same invalid date yields the returned error list with the same
(file, message) issue twice. -/
theorem c5_counterexample :
    (validate_delivery_data [("f.xlsx", .ok [c5bad, c5bad])]).2.1
      = [⟨"f.xlsx", dateErrMsg "bad"⟩, ⟨"f.xlsx", dateErrMsg "bad"⟩] := by
  decide

/-- C7: a date-typed or numeric cell with serial value n is rendered as
1899-12-30 plus n days, formatted "YYYY-MM-DD"; serial 44927 yields
"2023-01-01" and serial 0 yields "1899-12-30" (two further known pairs:
25569 = Unix epoch, 45658 = 2025-01-01). -/
theorem c7_date_serial :
    excel_serial_to_date 44927 = "2023-01-01"
      ∧ excel_serial_to_date 0 = "1899-12-30"
      ∧ excel_serial_to_date 25569 = "1970-01-01"
      ∧ excel_serial_to_date 45658 = "2025-01-01"
      ∧ excel_date_to_string (Cell.date 44927) = "2023-01-01"
      ∧ excel_date_to_string (Cell.float 44927) = "2023-01-01"
      ∧ excel_date_to_string (Cell.int 0) = "1899-12-30"
      ∧ (∀ q : ℚ, excel_date_to_string (Cell.date q) = excel_serial_to_date (ratTrunc q))
      ∧ (∀ q : ℚ, excel_date_to_string (Cell.float q) = excel_serial_to_date (ratTrunc q))
      ∧ (∀ i : ℤ, excel_date_to_string (Cell.int i) = excel_serial_to_date i)
      ∧ (∀ n : ℤ,
          excel_serial_to_date n = formatYmd (civilFromDays (daysFromCivil ⟨1899, 12, 30⟩ + n))) := by
  refine ⟨?_, ?_, ?_, ?_, ?_, ?_, ?_, fun q => rfl, fun q => rfl, fun i => rfl, fun n => rfl⟩
    <;> decide

/-- C8, counterexample. The claim says an unparsable date string is bucketed
under the sentinel year-month "unknown"; the code's sentinel is the localized
"未知". -/
theorem c8_counterexample :
    extract_year_month "abc" = "未知" ∧ "未知" ≠ "unknown" := by
  decide

/-- C8, amended: a record's date string is re-parsed against the accepted
formats plus a timestamp-suffixed variant and formatted "YYYY-MM" (so
"2024-03-15 08:00:00" groups under "2024-03"); if no format matches, the
substring up to the second '-' is used; if that also fails, the record is
bucketed under the localized sentinel "未知" ("unknown"). -/
theorem c8_year_month :
    extract_year_month "2024-03-15 08:00:00" = "2024-03"
      ∧ extract_year_month "2024-3-xx" = "2024-3"
      ∧ extract_year_month "abc" = "未知"
      ∧ group_by_customer_month [c8item] = [(("C", "未知"), [c8item])]
      ∧ group_by_customer_month [{ baseItem with date := "2024-03-15 08:00:00" }]
          = [(("C", "2024-03"), [{ baseItem with date := "2024-03-15 08:00:00" }])] := by
  decide

/-- C9: the (customer, order-number) → file map is updated even by a file
whose batch is rejected for a date error, so a later file sharing the pair
still gets a duplicate warning, and the rejected file's date-mismatch warning
stays in the warnings list alongside its error. Here file
"dir/2024-01-01-a.xlsx" has a valid record (content date 2024-01-02 ≠
filename date ⇒ mismatch warning, order number N1 registered) and an invalid
record ("bad" ⇒ error, batch rejected); file "b.xlsx" reuses (C, N1) and is
the only accepted batch, with the duplicate warning referencing it. -/
theorem c9_rejected_file_updates_map :
    validate_delivery_data
        [("dir/2024-01-01-a.xlsx", .ok [c9i1, c9i2]), ("b.xlsx", .ok [c9j1])]
      = ([c9j1],
         [⟨"dir/2024-01-01-a.xlsx", dateErrMsg "bad"⟩],
         [⟨"b.xlsx", dupMsg "C" "N1" "dir/2024-01-01-a.xlsx"⟩,
          ⟨"dir/2024-01-01-a.xlsx", mismatchMsg ⟨2024, 1, 1⟩ ⟨2024, 1, 2⟩⟩]) := by
  decide

/-- C10: the cell-number extractor's full string parse accepts "NaN", and on
a record set with a NaN amount (two summary rows, so the sort comparator is
invoked) `generate_summary`'s `partial_cmp(..).unwrap()` panics (modelled as
`Except.error ()`) instead of returning a sorted list. -/
theorem c10_nan_panic :
    extract_number (Cell.str "NaN") = some F64.nan
      ∧ generate_summary [c10a, c10b] = .error () := by
  with_unfolding_all decide

theorem colCellStep_snd (st : ColMap × Bool) (ic : ℕ × Cell) :
    (colCellStep st ic).2 = (st.2 || cellIsProductKw ic.2.toStr) := by
  unfold colCellStep
  cases h : cellIsProductKw ic.2.toStr
  · simp only [h, Bool.or_false]
    split_ifs <;> simp_all
  · simp [h]

theorem headerRowFold_snd (l : List (ℕ × Cell)) :
    ∀ st : ColMap × Bool,
      (l.foldl colCellStep st).2 = (st.2 || l.any (fun ic => cellIsProductKw ic.2.toStr)) := by
  induction l with
  | nil => intro st; simp
  | cons hd tl ih =>
    intro st
    simp only [List.foldl_cons, List.any_cons, ih, colCellStep_snd, Bool.or_assoc]

theorem enumFromAny {α : Type} (p : α → Bool) (l : List α) :
    ∀ n : ℕ, (List.enumFrom n l).any (fun ic => p ic.2) = l.any p := by
  induction l with
  | nil => intro n; rfl
  | cons hd tl ih => intro n; simp [List.enumFrom, ih]

theorem headerRowScan_snd (cm : ColMap) (row : List Cell) :
    (headerRowScan cm row).2 = rowHasProductKw row := by
  unfold headerRowScan rowHasProductKw
  rw [headerRowFold_snd]
  simp only [Bool.false_or, List.enum]
  exact enumFromAny (fun c => cellIsProductKw c.toStr) row 0

theorem headerScanAux_char (rows : List (List Cell)) :
    ∀ (i : ℕ) (cm : ColMap),
      headerScanAux i rows cm = headerChoice cm rows i (firstIdxP rowHasProductKw rows) := by
  induction rows with
  | nil => intro i cm; rfl
  | cons row rest ih =>
    intro i cm
    have hsnd := headerRowScan_snd cm row
    cases h : rowHasProductKw row with
    | true =>
      rw [h] at hsnd
      simp only [headerScanAux, hsnd, if_true, firstIdxP, h]
      simp [headerChoice, foldCmRows]
    | false =>
      rw [h] at hsnd
      simp only [headerScanAux, hsnd, Bool.false_eq_true, if_false, firstIdxP, h]
      rw [ih (i + 1) (headerRowScan cm row).1]
      cases hr : firstIdxP rowHasProductKw rest with
      | none => simp [headerChoice, foldCmRows]
      | some j =>
        simp only [Option.map, headerChoice]
        have h1 : foldCmRows cm ((row :: rest).take (j + 1 + 1))
            = foldCmRows (headerRowScan cm row).1 (rest.take (j + 1)) := by
          simp [foldCmRows]
        have h2 : i + 1 + j + 1 = i + (j + 1) + 1 := by omega
        rw [h1, h2]

/-- C1, amended: scanning rows 0..14, the header row is the first row some
cell of which carries a product-name keyword (货名 / 货品名称 / Description) —
the other six label families do not qualify a row; label-family column
indices are accumulated over every scanned row up to and including the header
row, a later match overwriting an earlier one; data-start-row is that row's
index + 1 (default 8 when no row qualifies). -/
theorem c1_header_locator (g : List (List Cell)) :
    headerScan g = headerChoice {} (g.take 15) 0 (firstIdxP rowHasProductKw (g.take 15)) := by
  unfold headerScan
  rw [headerScanAux_char (g.take 15) 0 {}]

theorem strIsEmpty_false_ne {s : String} (h : strIsEmpty s = false) : s ≠ "" := by
  intro he
  subst he
  exact absurd h (by decide)

theorem productNameOf_ne {ci : ColIdx} {row : List Cell} {nm : String}
    (h : productNameOf ci row = some nm) : nm ≠ "" := by
  unfold productNameOf at h
  cases hg : row.get? ci.p with
  | none => rw [hg] at h; cases h
  | some c =>
    rw [hg] at h
    dsimp only at h
    split at h
    · cases h
    · cases h
      exact strIsEmpty_false_ne (Bool.not_eq_true _ ▸ Bool.of_not_eq_true (by assumption))

theorem extractLoop_eq (path ctype : String) (mv : MetaVals) (ci : ColIdx) :
    ∀ (rows : List (List Cell)) (hon : String),
      extractLoop path ctype mv ci rows hon
        = emitQual path ctype mv ci ((dataRegion rows).filter (qualRow ci)) hon := by
  intro rows
  induction rows with
  | nil => intro hon; rfl
  | cons row rest ih =>
    intro hon
    unfold extractLoop dataRegion
    cases ht : isTotalsRow row with
    | true => simp [ht, List.takeWhile_cons, emitQual]
    | false =>
      simp only [ht, Bool.false_eq_true, if_false, Bool.not_false, List.takeWhile_cons,
        if_true, List.filter_cons]
      cases hq : qualRow ci row with
      | true =>
        have hq2 : ((productNameOf ci row).isSome && (quantityOf ci row).isSome) = true := hq
        simp only [hq2, if_true, emitQual, hq]
        rw [ih (resyncRow row hon)]
        rfl
      | false =>
        have hq2 : ((productNameOf ci row).isSome && (quantityOf ci row).isSome) = false := hq
        simp only [hq2, Bool.false_eq_true, if_false, hq]
        exact ih hon

theorem extractLoop_product_ne (path ctype : String) (mv : MetaVals) (ci : ColIdx) :
    ∀ (rows : List (List Cell)) (hon : String) (it : DeliveryItem),
      it ∈ extractLoop path ctype mv ci rows hon → it.product_name ≠ "" := by
  intro rows
  induction rows with
  | nil => intro hon it h; cases h
  | cons row rest ih =>
    intro hon it h
    unfold extractLoop at h
    split at h
    · cases h
    · split at h
      case isTrue hq =>
        rcases List.mem_cons.mp h with he | hm
        · subst he
          have hs : (productNameOf ci row).isSome = true := (Bool.and_eq_true_iff.mp hq).1
          rcases Option.isSome_iff_exists.mp hs with ⟨nm, hnm⟩
          show ((productNameOf ci row).getD "") ≠ ""
          rw [hnm]
          exact productNameOf_ne hnm
        · exact ih _ it hm
      case isFalse => exact ih _ it h

/-- C3: a Record is emitted exactly for the rows of the data region (rows
from data-start-row up to the first totals row) whose cleaned product-name
text is non-empty and whose quantity cell parses as a number — the extraction
equals a one-record-per-qualifying-row emission over the filtered region —
and consequently every emitted Record has a non-empty product name (its
quantity being structurally present). -/
theorem c3_quantity_gating (g : List (List Cell)) (path ctype : String) :
    extract_delivery_data g path ctype
      = emitQual path ctype (metaScan g) (colIdxOf (headerScan g).1)
          ((dataRegion (g.drop (headerScan g).2)).filter (qualRow (colIdxOf (headerScan g).1)))
          (metaScan g).header_order_no
      ∧ ∀ it ∈ extract_delivery_data g path ctype, it.product_name ≠ "" := by
  constructor
  · unfold extract_delivery_data
    exact extractLoop_eq path ctype (metaScan g) (colIdxOf (headerScan g).1)
      (g.drop (headerScan g).2) (metaScan g).header_order_no
  · intro it hit
    exact extractLoop_product_ne path ctype (metaScan g) (colIdxOf (headerScan g).1)
      (g.drop (headerScan g).2) (metaScan g).header_order_no it hit

theorem dupStep_errors (f : String) (s : VState) (it : DeliveryItem) :
    (dupStep f s it).errors = s.errors := by
  unfold dupStep
  dsimp only
  repeat' split
  all_goals rfl

theorem dupStep_items (f : String) (s : VState) (it : DeliveryItem) :
    (dupStep f s it).all_items = s.all_items := by
  unfold dupStep
  dsimp only
  repeat' split
  all_goals rfl

theorem dateStep_errors (f : String) (fd : Option Ymd) (st : VState × Bool)
    (it : DeliveryItem) :
    (dateStep f fd st it).1.errors
      = st.1.errors
          ++ (if validate_date_str it.date then [] else [⟨f, dateErrMsg it.date⟩]) := by
  unfold dateStep
  split
  case isTrue h =>
    rw [List.append_nil]
    repeat' split
    all_goals rfl
  case isFalse h =>
    rfl

theorem dateStep_items (f : String) (fd : Option Ymd) (st : VState × Bool)
    (it : DeliveryItem) :
    (dateStep f fd st it).1.all_items = st.1.all_items := by
  unfold dateStep
  repeat' split
  all_goals rfl

theorem dateStep_flag (f : String) (fd : Option Ymd) (st : VState × Bool)
    (it : DeliveryItem) :
    (dateStep f fd st it).2 = (st.2 || !validate_date_str it.date) := by
  unfold dateStep
  split
  case isTrue h =>
    rw [h]
    simp only [Bool.not_true, Bool.or_false]
    repeat' split
    all_goals rfl
  case isFalse h =>
    rw [Bool.not_eq_true] at h
    rw [h]
    simp

theorem processItem_errors (f : String) (fd : Option Ymd) (st : VState × Bool)
    (it : DeliveryItem) :
    (processItem f fd st it).1.errors
      = st.1.errors
          ++ (if validate_date_str it.date then [] else [⟨f, dateErrMsg it.date⟩]) := by
  show (dupStep f (dateStep f fd st it).1 it).errors = _
  rw [dupStep_errors, dateStep_errors]

theorem processItem_items (f : String) (fd : Option Ymd) (st : VState × Bool)
    (it : DeliveryItem) :
    (processItem f fd st it).1.all_items = st.1.all_items := by
  show (dupStep f (dateStep f fd st it).1 it).all_items = _
  rw [dupStep_items, dateStep_items]

theorem processItem_flag (f : String) (fd : Option Ymd) (st : VState × Bool)
    (it : DeliveryItem) :
    (processItem f fd st it).2 = (st.2 || !validate_date_str it.date) :=
  dateStep_flag f fd st it

theorem itemsFold_char (file : String) (fdate : Option Ymd) :
    ∀ (items : List DeliveryItem) (st : VState × Bool),
      ((items.foldl (processItem file fdate) st).1.errors
          = st.1.errors
              ++ (items.filter (fun it => !validate_date_str it.date)).map
                  (fun it => ⟨file, dateErrMsg it.date⟩))
      ∧ ((items.foldl (processItem file fdate) st).1.all_items = st.1.all_items)
      ∧ ((items.foldl (processItem file fdate) st).2
          = (st.2 || items.any (fun it => !validate_date_str it.date))) := by
  intro items
  induction items with
  | nil => intro st; exact ⟨(List.append_nil _).symm, rfl, (Bool.or_false _).symm⟩
  | cons it rest ih =>
    intro st
    simp only [List.foldl_cons, List.filter_cons, List.any_cons]
    refine ⟨?_, ?_, ?_⟩
    · rw [(ih (processItem file fdate st it)).1, processItem_errors]
      cases hv : validate_date_str it.date <;>
        simp [hv, List.append_assoc]
    · rw [(ih (processItem file fdate st it)).2.1, processItem_items]
    · rw [(ih (processItem file fdate st it)).2.2, processItem_flag]
      cases hv : validate_date_str it.date <;> simp [hv, Bool.or_assoc]

theorem processFile_char (st : VState) (f : String × Except String (List DeliveryItem)) :
    (processFile st f).errors = st.errors ++ fileErrorsOf f
      ∧ (processFile st f).all_items = st.all_items ++ fileAcceptedOf f := by
  obtain ⟨path, res⟩ := f
  cases res with
  | error e =>
    exact ⟨rfl, (List.append_nil _).symm⟩
  | ok items =>
    unfold processFile fileErrorsOf fileAcceptedOf
    cases he : items.isEmpty with
    | true =>
      rw [List.isEmpty_iff.mp he]
      exact ⟨(List.append_nil _).symm, (List.append_nil _).symm⟩
    | false =>
      dsimp only
      rw [if_neg (by simp [he])]
      have hc := itemsFold_char path (extract_date_from_filename (lastComp path)) items
        (st, false)
      constructor
      · split
        · exact hc.1
        · show ({ (items.foldl _ (st, false)).1 with
              all_items := _ }).errors = _
          exact hc.1
      · rw [hc.2.2] at *
        split
        case isTrue hflag =>
          rw [hc.2.2] at hflag
          simp only [Bool.false_or] at hflag
          rw [hflag, if_pos rfl, List.append_nil]
          exact hc.2.1
        case isFalse hflag =>
          rw [hc.2.2] at hflag
          simp only [Bool.false_or] at hflag
          rw [Bool.not_eq_true] at hflag
          rw [hflag]
          show (items.foldl _ (st, false)).1.all_items ++ items = _
          rw [hc.2.1]
          simp

theorem validateFold_char :
    ∀ (files : List (String × Except String (List DeliveryItem))) (st : VState),
      ((files.foldl processFile st).errors = st.errors ++ files.flatMap fileErrorsOf)
      ∧ ((files.foldl processFile st).all_items = st.all_items ++ files.flatMap fileAcceptedOf) := by
  intro files
  induction files with
  | nil => intro st; exact ⟨(List.append_nil _).symm, (List.append_nil _).symm⟩
  | cons f rest ih =>
    intro st
    simp only [List.foldl_cons, List.flatMap_cons]
    have hp := processFile_char st f
    refine ⟨?_, ?_⟩
    · rw [(ih (processFile st f)).1, hp.1, List.append_assoc]
    · rw [(ih (processFile st f)).2, hp.2, List.append_assoc]

/-- C2: during reconciliation the accepted records are exactly the
concatenation of the batches of files whose records all carry valid dates
(all-or-nothing per file — a file with any invalid-date record contributes
nothing), the error list is exactly the per-file error lists (one parse
error for a failed file, one date error per invalid-date record), and the
function always returns this full tri-partition (it is total; per-file
failures never abort the run). -/
theorem c2_all_or_nothing (files : List (String × Except String (List DeliveryItem))) :
    (validate_delivery_data files).1 = files.flatMap fileAcceptedOf
      ∧ (validate_delivery_data files).2.1 = files.flatMap fileErrorsOf := by
  unfold validate_delivery_data
  have h := validateFold_char files ⟨[], [], [], []⟩
  exact ⟨h.2, h.1⟩

theorem strLtL_irrefl : ∀ xs : List Char, strLtL xs xs = false := by
  intro xs
  induction xs with
  | nil => rfl
  | cons a xs ih => simp [strLtL, lt_self_iff_false, ih]

theorem strLtL_trans :
    ∀ xs ys zs : List Char,
      strLtL xs ys = true → strLtL ys zs = true → strLtL xs zs = true := by
  intro xs
  induction xs with
  | nil =>
    intro ys zs h1 h2
    cases ys with
    | nil => simp [strLtL] at h1
    | cons b ys2 =>
      cases zs with
      | nil => simp [strLtL] at h2
      | cons c zs2 => rfl
  | cons a xs ih =>
    intro ys zs h1 h2
    cases ys with
    | nil => simp [strLtL] at h1
    | cons b ys2 =>
      cases zs with
      | nil => simp [strLtL] at h2
      | cons c zs2 =>
        simp only [strLtL] at h1 h2 ⊢
        by_cases hab : a < b
        · by_cases hbc : b < c
          · simp [lt_trans hab hbc]
          · simp only [hbc, if_false] at h2
            by_cases hcb : c < b
            · simp [hcb] at h2
            · have hbc2 : b = c := le_antisymm (not_lt.mp hcb) (not_lt.mp hbc)
              subst hbc2
              simp [hab]
        · simp only [hab, if_false] at h1
          by_cases hba : b < a
          · simp [hba] at h1
          · have hab2 : a = b := le_antisymm (not_lt.mp hba) (not_lt.mp hab)
            subst hab2
            simp only [hab, if_false, lt_self_iff_false] at h1 ⊢
            by_cases hac : a < c
            · simp [hac]
            · simp only [hac, if_false] at h2 ⊢
              by_cases hca : c < a
              · simp [hca] at h2
              · simp only [hca, if_false] at h2 ⊢
                exact ih ys2 zs2 h1 h2

theorem strLtL_eq_of_not :
    ∀ xs ys : List Char, strLtL xs ys = false → strLtL ys xs = false → xs = ys := by
  intro xs
  induction xs with
  | nil =>
    intro ys h1 _
    cases ys with
    | nil => rfl
    | cons b ys2 => simp [strLtL] at h1
  | cons a xs ih =>
    intro ys h1 h2
    cases ys with
    | nil => simp [strLtL] at h2
    | cons b ys2 =>
      simp only [strLtL] at h1 h2
      by_cases hab : a < b
      · simp [hab] at h1
      · by_cases hba : b < a
        · simp [hba] at h2
        · have hab2 : a = b := le_antisymm (not_lt.mp hba) (not_lt.mp hab)
          subst hab2
          simp only [lt_self_iff_false, if_false] at h1 h2
          rw [ih ys2 h1 h2]

theorem stringDataInj {a b : String} (h : a.data = b.data) : a = b := by
  cases a
  cases b
  cases h
  rfl

theorem strCmpB_eq_iff (a b : String) : strCmpB a b = .eq ↔ a = b := by
  unfold strCmpB
  constructor
  · intro h
    by_cases h1 : strLtL a.data b.data = true
    · simp [h1] at h
    · by_cases h2 : strLtL b.data a.data = true
      · simp [h1, h2] at h
      · exact stringDataInj (strLtL_eq_of_not a.data b.data
          (Bool.not_eq_true _ ▸ h1) (Bool.not_eq_true _ ▸ h2))
  · intro h
    subst h
    simp [strLtL_irrefl]

theorem strLtL_asymm {xs ys : List Char} (h1 : strLtL xs ys = true)
    (h2 : strLtL ys xs = true) : False := by
  have := strLtL_trans xs ys xs h1 h2
  rw [strLtL_irrefl] at this
  cases this

theorem strCmpB_gt_iff (a b : String) : strCmpB a b = .gt ↔ strLtL b.data a.data = true := by
  unfold strCmpB
  constructor
  · intro h
    by_cases h1 : strLtL a.data b.data = true
    · simp [h1] at h
    · by_cases h2 : strLtL b.data a.data = true
      · exact h2
      · simp [h1, h2] at h
  · intro h
    have h1 : strLtL a.data b.data = false := by
      cases hc : strLtL a.data b.data
      · rfl
      · exact (strLtL_asymm hc h).elim
    simp [h1, h]

theorem strCmpB_lt_iff (a b : String) : strCmpB a b = .lt ↔ strLtL a.data b.data = true := by
  unfold strCmpB
  constructor
  · intro h
    by_cases h1 : strLtL a.data b.data = true
    · exact h1
    · by_cases h2 : strLtL b.data a.data = true <;> simp [h1, h2] at h
  · intro h
    simp [h]

theorem fveEq_of {a b : FileValidationError} (h1 : a.file = b.file)
    (h2 : a.error = b.error) : a = b := by
  cases a
  cases b
  cases h1
  cases h2
  rfl

theorem fveCmp_gt_iff (a b : FileValidationError) : fveCmp a b = .gt ↔ fveLtP b a := by
  unfold fveCmp fveLtP
  cases hf : strCmpB a.file b.file with
  | lt =>
    simp only [Ordering.then]
    constructor
    · intro h
      cases h
    · intro h
      rcases h with h | ⟨he, h⟩
      · exact ((strLtL_asymm ((strCmpB_lt_iff a.file b.file).mp hf) h).elim)
      · rw [he] at hf
        cases ((strCmpB_eq_iff a.file a.file).mpr rfl).symm.trans hf
  | eq =>
    have he : a.file = b.file := (strCmpB_eq_iff a.file b.file).mp hf
    simp only [Ordering.then]
    rw [strCmpB_gt_iff]
    constructor
    · intro h
      exact Or.inr ⟨he.symm, h⟩
    · intro h
      rcases h with h | ⟨_, h⟩
      · rw [he] at h
        rw [strLtL_irrefl] at h
        cases h
      · exact h
  | gt =>
    simp only [Ordering.then]
    have h := (strCmpB_gt_iff a.file b.file).mp hf
    constructor
    · intro _
      exact Or.inl h
    · intro _
      trivial

theorem fveCmp_eq_iff (a b : FileValidationError) : fveCmp a b = .eq ↔ a = b := by
  unfold fveCmp
  cases hf : strCmpB a.file b.file with
  | lt =>
    simp only [Ordering.then]
    constructor
    · intro h; cases h
    · intro h
      subst h
      rw [(strCmpB_eq_iff a.file a.file).mpr rfl] at hf
      cases hf
  | eq =>
    have he : a.file = b.file := (strCmpB_eq_iff a.file b.file).mp hf
    simp only [Ordering.then]
    constructor
    · intro h
      exact fveEq_of he ((strCmpB_eq_iff a.error b.error).mp h)
    · intro h
      subst h
      exact (strCmpB_eq_iff a.error a.error).mpr rfl
  | gt =>
    simp only [Ordering.then]
    constructor
    · intro h; cases h
    · intro h
      subst h
      rw [(strCmpB_eq_iff a.file a.file).mpr rfl] at hf
      cases hf

theorem fveLtP_trans {a b c : FileValidationError} (h1 : fveLtP a b) (h2 : fveLtP b c) :
    fveLtP a c := by
  unfold fveLtP at h1 h2 ⊢
  rcases h1 with h1 | ⟨he1, h1⟩
  · rcases h2 with h2 | ⟨he2, h2⟩
    · exact Or.inl (strLtL_trans _ _ _ h1 h2)
    · exact Or.inl (he2 ▸ h1)
  · rcases h2 with h2 | ⟨he2, h2⟩
    · exact Or.inl (he1 ▸ h2)
    · exact Or.inr ⟨he1.trans he2, strLtL_trans _ _ _ h1 h2⟩

theorem fveLtP_irrefl (a : FileValidationError) : ¬ fveLtP a a := by
  unfold fveLtP
  intro h
  rcases h with h | ⟨_, h⟩ <;> (rw [strLtL_irrefl] at h; cases h)

theorem fveLtP_asymm {a b : FileValidationError} (h1 : fveLtP a b) (h2 : fveLtP b a) :
    False :=
  fveLtP_irrefl a (fveLtP_trans h1 h2)

theorem fve_trichotomy (a b : FileValidationError) : fveLtP a b ∨ a = b ∨ fveLtP b a := by
  cases hc : fveCmp a b with
  | lt =>
    left
    have : fveCmp b a = .gt := by
      unfold fveCmp at hc ⊢
      cases hf : strCmpB a.file b.file with
      | lt =>
        have := (strCmpB_lt_iff a.file b.file).mp hf
        rw [(strCmpB_gt_iff b.file a.file).mpr this]
        rfl
      | eq =>
        have he := (strCmpB_eq_iff a.file b.file).mp hf
        rw [hf] at hc
        simp only [Ordering.then] at hc
        rw [(strCmpB_eq_iff b.file a.file).mpr he.symm]
        simp only [Ordering.then]
        rw [strCmpB_gt_iff]
        exact (strCmpB_lt_iff a.error b.error).mp hc
      | gt =>
        rw [hf] at hc
        simp only [Ordering.then] at hc
        cases hc
    exact (fveCmp_gt_iff b a).mp this
  | eq => exact Or.inr (Or.inl ((fveCmp_eq_iff a b).mp hc))
  | gt => exact Or.inr (Or.inr ((fveCmp_gt_iff a b).mp hc))

theorem fveLeP_iff (a b : FileValidationError) : fveLeP a b ↔ (fveLtP a b ∨ a = b) := by
  unfold fveLeP
  constructor
  · intro h
    rcases fve_trichotomy a b with h1 | h1 | h1
    · exact Or.inl h1
    · exact Or.inr h1
    · exact absurd ((fveCmp_gt_iff a b).mpr h1) h
  · intro h hc
    rcases h with h | h
    · exact fveLtP_asymm h ((fveCmp_gt_iff a b).mp hc)
    · subst h
      exact fveLtP_irrefl a ((fveCmp_gt_iff a a).mp hc)

theorem fveLeP_trans {a b c : FileValidationError} (h1 : fveLeP a b) (h2 : fveLeP b c) :
    fveLeP a c := by
  rcases (fveLeP_iff a b).mp h1 with h1 | h1
  · rcases (fveLeP_iff b c).mp h2 with h2 | h2
    · exact (fveLeP_iff a c).mpr (Or.inl (fveLtP_trans h1 h2))
    · exact (fveLeP_iff a c).mpr (Or.inl (h2 ▸ h1))
  · subst h1
    exact h2

theorem fveLeP_of_lt {a b : FileValidationError} (h : fveLtP a b) : fveLeP a b :=
  (fveLeP_iff a b).mpr (Or.inl h)

theorem fveLe_ne_lt {a b : FileValidationError} (h1 : fveLeP a b) (h2 : a ≠ b) :
    fveLtP a b := by
  rcases (fveLeP_iff a b).mp h1 with h | h
  · exact h
  · exact absurd h h2

theorem insFVE_mem (x : FileValidationError) :
    ∀ (l : List FileValidationError) (z : FileValidationError),
      z ∈ insFVE x l ↔ z = x ∨ z ∈ l := by
  intro l
  induction l with
  | nil => intro z; simp [insFVE]
  | cons y ys ih =>
    intro z
    unfold insFVE
    cases hc : fveCmp y x with
    | gt => simp only [List.mem_cons]
    | lt => simp only [List.mem_cons, ih]; tauto
    | eq => simp only [List.mem_cons, ih]; tauto

theorem insFVE_sorted (x : FileValidationError) :
    ∀ l : List FileValidationError,
      l.Pairwise fveLeP → (insFVE x l).Pairwise fveLeP := by
  intro l
  induction l with
  | nil => intro _; simp [insFVE]
  | cons y ys ih =>
    intro hp
    rcases List.pairwise_cons.mp hp with ⟨hy, hys⟩
    unfold insFVE
    cases hc : fveCmp y x with
    | gt =>
      have hxy : fveLtP x y := (fveCmp_gt_iff y x).mp hc
      refine List.pairwise_cons.mpr ⟨?_, hp⟩
      intro z hz
      rcases List.mem_cons.mp hz with hz | hz
      · subst hz
        exact fveLeP_of_lt hxy
      · exact fveLeP_trans (fveLeP_of_lt hxy) (hy z hz)
    | lt =>
      have hyx : fveLeP y x := by
        unfold fveLeP
        rw [hc]
        intro h
        cases h
      refine List.pairwise_cons.mpr ⟨?_, ih hys⟩
      intro z hz
      rcases (insFVE_mem x ys z).mp hz with hz | hz
      · subst hz
        exact hyx
      · exact hy z hz
    | eq =>
      have hyx : fveLeP y x := by
        unfold fveLeP
        rw [hc]
        intro h
        cases h
      refine List.pairwise_cons.mpr ⟨?_, ih hys⟩
      intro z hz
      rcases (insFVE_mem x ys z).mp hz with hz | hz
      · subst hz
        exact hyx
      · exact hy z hz

theorem sortFVE_sorted (l : List FileValidationError) :
    (sortFVE l).Pairwise fveLeP := by
  unfold sortFVE
  have h : ∀ (l2 acc : List FileValidationError), acc.Pairwise fveLeP →
      (l2.foldl (fun acc x => insFVE x acc) acc).Pairwise fveLeP := by
    intro l2
    induction l2 with
    | nil => intro acc hp; exact hp
    | cons x xs ih =>
      intro acc hp
      exact ih (insFVE x acc) (insFVE_sorted x acc hp)
  exact h l [] List.Pairwise.nil

theorem dedupAdj_lt (x : FileValidationError) :
    ∀ xs : List FileValidationError,
      (∀ z ∈ xs, fveLeP x z) → xs.Pairwise fveLeP →
        (dedupAdj x xs).Pairwise fveLtP ∧ ∀ z ∈ dedupAdj x xs, fveLtP x z := by
  intro xs
  induction xs generalizing x with
  | nil => intro _ _; exact ⟨List.Pairwise.nil, by intro z hz; cases hz⟩
  | cons y ys ih =>
    intro hall hp
    rcases List.pairwise_cons.mp hp with ⟨hy, hys⟩
    unfold dedupAdj
    cases hc : (y.file = x.file && y.error = x.error) with
    | true =>
      rcases Bool.and_eq_true_iff.mp hc with ⟨h1, h2⟩
      have hyx : y = x := fveEq_of (of_decide_eq_true h1) (of_decide_eq_true h2)
      subst hyx
      simp only [if_pos rfl]
      exact ih y (fun z hz => hy z hz) hys
    | false =>
      have hne : y ≠ x := by
        intro h
        subst h
        simp at hc
      simp only [hc, Bool.false_eq_true, if_false]
      have hxy : fveLtP x y :=
        fveLe_ne_lt (hall y (List.mem_cons_self y ys)) (fun h => hne h.symm)
      have hrec := ih y hy hys
      refine ⟨List.pairwise_cons.mpr ⟨hrec.2, hrec.1⟩, ?_⟩
      intro z hz
      rcases List.mem_cons.mp hz with hz | hz
      · subst hz
        exact hxy
      · exact fveLtP_trans hxy (hrec.2 z hz)

theorem dedupFVE_pairwise (l : List FileValidationError)
    (h : l.Pairwise fveLeP) : (dedupFVE l).Pairwise fveLtP := by
  cases l with
  | nil => exact List.Pairwise.nil
  | cons x xs =>
    rcases List.pairwise_cons.mp h with ⟨hx, hxs⟩
    unfold dedupFVE
    have hd := dedupAdj_lt x xs hx hxs
    exact List.pairwise_cons.mpr ⟨hd.2, hd.1⟩

/-- C5, amended: the warnings returned by the reconciliation engine are
sorted by (file, message) and deduplicated by exact (file, message) equality
(stated as: strictly increasing in the lexicographic (file, message) order —
which gives both sortedness and the absence of duplicates); the error list,
by contrast, is returned as accumulated, without deduplication. -/
theorem c5_warnings_sorted_dedup (files : List (String × Except String (List DeliveryItem))) :
    ((validate_delivery_data files).2.2).Pairwise fveLtP := by
  unfold validate_delivery_data
  exact dedupFVE_pairwise _ (sortFVE_sorted _)

theorem dateStep_none_valid (f : String) (st : VState × Bool) (it : DeliveryItem)
    (hd : validate_date_str it.date = true) : dateStep f none st it = st := by
  unfold dateStep
  rw [if_pos hd]

theorem dupStep_char (f : String) (s : VState) (it : DeliveryItem) (c n : String)
    (hc : it.customer = c) (hn : it.delivery_order_no = n) (hne : strIsEmpty n = false) :
    dupStep f s it =
      match alFind s.omap (c, n) with
      | some ex =>
        if ex ≠ f then { s with warnings := s.warnings ++ [⟨f, dupMsg c n ex⟩] } else s
      | none => { s with omap := s.omap ++ [((c, n), f)] } := by
  unfold dupStep
  rw [hc, hn, hne]
  try simp only [Bool.false_eq_true, if_false]

theorem alFind_append_none {κ α : Type} [DecidableEq κ] (m : List (κ × α)) (k : κ) (v : α)
    (h : alFind m k = none) : alFind (m ++ [(k, v)]) k = some v := by
  induction m with
  | nil => simp [alFind]
  | cons e rest ih =>
    rw [List.cons_append]
    simp only [alFind] at h ⊢
    by_cases he : e.1 = k
    · rw [if_pos he] at h
      cases h
    · rw [if_neg he] at h ⊢
      exact ih h

theorem itemsFold_uniform_same (f c n : String) :
    ∀ (items : List DeliveryItem) (st : VState) (b : Bool),
      (∀ it ∈ items,
          it.customer = c ∧ it.delivery_order_no = n ∧ validate_date_str it.date = true) →
      strIsEmpty n = false →
      alFind st.omap (c, n) = some f →
      items.foldl (processItem f none) (st, b) = (st, b) := by
  intro items
  induction items with
  | nil => intro st b _ _ _; rfl
  | cons it rest ih =>
    intro st b hu hne hfind
    rcases hu it (List.mem_cons_self it rest) with ⟨hc, hn, hd⟩
    rw [List.foldl_cons]
    have hstep : processItem f none (st, b) it = (st, b) := by
      unfold processItem
      rw [dateStep_none_valid f (st, b) it hd]
      dsimp only
      rw [dupStep_char f st it c n hc hn hne, hfind]
      simp
    rw [hstep]
    exact ih st b (fun z hz => hu z (List.mem_cons_of_mem it hz)) hne hfind

theorem itemsFold_uniform_ins (f c n : String) :
    ∀ (items : List DeliveryItem) (st : VState) (b : Bool),
      (∀ it ∈ items,
          it.customer = c ∧ it.delivery_order_no = n ∧ validate_date_str it.date = true) →
      strIsEmpty n = false →
      items ≠ [] →
      alFind st.omap (c, n) = none →
      items.foldl (processItem f none) (st, b)
        = ({ st with omap := st.omap ++ [((c, n), f)] }, b) := by
  intro items
  cases items with
  | nil => intro st b _ _ hno _; exact absurd rfl hno
  | cons it rest =>
    intro st b hu hne _ hfind
    rcases hu it (List.mem_cons_self it rest) with ⟨hc, hn, hd⟩
    rw [List.foldl_cons]
    have hstep : processItem f none (st, b) it
        = ({ st with omap := st.omap ++ [((c, n), f)] }, b) := by
      unfold processItem
      rw [dateStep_none_valid f (st, b) it hd]
      dsimp only
      rw [dupStep_char f st it c n hc hn hne, hfind]
    rw [hstep]
    exact itemsFold_uniform_same f c n rest _ b
      (fun z hz => hu z (List.mem_cons_of_mem it hz)) hne
      (alFind_append_none st.omap (c, n) f hfind)

theorem itemsFold_uniform_dup (f c n ex : String) (hex : ex ≠ f) :
    ∀ (items : List DeliveryItem) (st : VState) (b : Bool),
      (∀ it ∈ items,
          it.customer = c ∧ it.delivery_order_no = n ∧ validate_date_str it.date = true) →
      strIsEmpty n = false →
      alFind st.omap (c, n) = some ex →
      items.foldl (processItem f none) (st, b)
        = ({ st with warnings :=
              st.warnings ++ items.map (fun _ => ⟨f, dupMsg c n ex⟩) }, b) := by
  intro items
  induction items with
  | nil =>
    intro st b _ _ _
    simp
  | cons it rest ih =>
    intro st b hu hne hfind
    rcases hu it (List.mem_cons_self it rest) with ⟨hc, hn, hd⟩
    rw [List.foldl_cons]
    have hstep : processItem f none (st, b) it
        = ({ st with warnings := st.warnings ++ [⟨f, dupMsg c n ex⟩] }, b) := by
      unfold processItem
      rw [dateStep_none_valid f (st, b) it hd]
      dsimp only
      rw [dupStep_char f st it c n hc hn hne, hfind]
      simp [hex]
    rw [hstep]
    rw [ih { st with warnings := st.warnings ++ [⟨f, dupMsg c n ex⟩] } b
      (fun z hz => hu z (List.mem_cons_of_mem it hz)) hne hfind]
    simp [List.append_assoc]

theorem fveCmp_refl (w : FileValidationError) : fveCmp w w = .eq :=
  (fveCmp_eq_iff w w).mpr rfl

theorem insFVE_self_replicate (w : FileValidationError) :
    ∀ k : ℕ, insFVE w (List.replicate k w) = List.replicate (k + 1) w := by
  intro k
  induction k with
  | zero => rfl
  | succ j ih =>
    rw [List.replicate_succ]
    unfold insFVE
    rw [fveCmp_refl]
    show w :: insFVE w (List.replicate j w) = _
    rw [ih]
    rfl

theorem sortFVE_replicate (w : FileValidationError) :
    ∀ k : ℕ, sortFVE (List.replicate k w) = List.replicate k w := by
  have haux : ∀ (k j : ℕ),
      (List.replicate k w).foldl (fun acc x => insFVE x acc) (List.replicate j w)
        = List.replicate (j + k) w := by
    intro k
    induction k with
    | zero => intro j; simp
    | succ m ih =>
      intro j
      rw [List.replicate_succ, List.foldl_cons, insFVE_self_replicate w j, ih (j + 1)]
      congr 1
      omega
  intro k
  have := haux k 0
  simpa [sortFVE] using this

theorem dedupAdj_self (w : FileValidationError) :
    ∀ k : ℕ, dedupAdj w (List.replicate k w) = [] := by
  intro k
  induction k with
  | zero => rfl
  | succ j ih =>
    rw [List.replicate_succ]
    unfold dedupAdj
    rw [if_pos (by simp)]
    exact ih

theorem dedupFVE_replicate (w : FileValidationError) (k : ℕ) :
    dedupFVE (List.replicate (k + 1) w) = [w] := by
  rw [List.replicate_succ]
  show w :: dedupAdj w (List.replicate k w) = [w]
  rw [dedupAdj_self w k]

/-- C6: when two distinct files for the same customer share a non-empty
delivery-order-number (every record carrying valid dates, the filenames
carrying no date), exactly one warning is produced — referencing the second
file and naming the first — the full batches of both files are accepted and
no error is raised; and a single file repeating the same order number across
its own rows produces no warning at all. -/
theorem c6_duplicate_detection :
    (∀ (f1 f2 c n d : String) (items1 items2 : List DeliveryItem),
        f1 ≠ f2 → strIsEmpty n = false → items1 ≠ [] → items2 ≠ [] →
        validate_date_str d = true →
        extract_date_from_filename (lastComp f1) = none →
        extract_date_from_filename (lastComp f2) = none →
        (∀ it ∈ items1 ++ items2,
            it.customer = c ∧ it.delivery_order_no = n ∧ it.date = d) →
        validate_delivery_data [(f1, .ok items1), (f2, .ok items2)]
          = (items1 ++ items2, [], [⟨f2, dupMsg c n f1⟩]))
    ∧ (∀ (f c n d : String) (items : List DeliveryItem),
        strIsEmpty n = false → items ≠ [] →
        validate_date_str d = true →
        extract_date_from_filename (lastComp f) = none →
        (∀ it ∈ items, it.customer = c ∧ it.delivery_order_no = n ∧ it.date = d) →
        validate_delivery_data [(f, .ok items)] = (items, [], [])) := by
  have huval : ∀ (c n d : String) (items : List DeliveryItem),
      validate_date_str d = true →
      (∀ it ∈ items, it.customer = c ∧ it.delivery_order_no = n ∧ it.date = d) →
      (∀ it ∈ items,
          it.customer = c ∧ it.delivery_order_no = n ∧ validate_date_str it.date = true) := by
    intro c n d items hd hu it hit
    rcases hu it hit with ⟨h1, h2, h3⟩
    exact ⟨h1, h2, h3 ▸ hd⟩
  constructor
  · intro f1 f2 c n d items1 items2 h12 hne h1 h2 hd hf1 hf2 hu
    have hu1 := huval c n d items1 hd
      (fun it hit => hu it (List.mem_append.mpr (Or.inl hit)))
    have hu2 := huval c n d items2 hd
      (fun it hit => hu it (List.mem_append.mpr (Or.inr hit)))
    unfold validate_delivery_data
    rw [List.foldl_cons, List.foldl_cons, List.foldl_nil]
    have hpf1 : processFile ⟨[], [], [], []⟩ (f1, .ok items1)
        = ⟨items1, [], [], [((c, n), f1)]⟩ := by
      unfold processFile
      dsimp only
      rw [if_neg (by simp only [List.isEmpty_iff]; exact h1)]
      rw [hf1]
      rw [itemsFold_uniform_ins f1 c n items1 ⟨[], [], [], []⟩ false hu1 hne h1 rfl]
      rfl
    rw [hpf1]
    have hpf2 : processFile ⟨items1, [], [], [((c, n), f1)]⟩ (f2, .ok items2)
        = ⟨items1 ++ items2, [],
            items2.map (fun _ => ⟨f2, dupMsg c n f1⟩), [((c, n), f1)]⟩ := by
      unfold processFile
      dsimp only
      rw [if_neg (by simp only [List.isEmpty_iff]; exact h2)]
      rw [hf2]
      rw [itemsFold_uniform_dup f2 c n f1 h12 items2
        ⟨items1, [], [], [((c, n), f1)]⟩ false hu2 hne (by simp [alFind])]
      rfl
    rw [hpf2]
    dsimp only
    rcases List.exists_cons_of_ne_nil h2 with ⟨it0, rest2, hrest⟩
    subst hrest
    rw [show (it0 :: rest2).map (fun _ => (⟨f2, dupMsg c n f1⟩ : FileValidationError))
        = List.replicate (rest2.length + 1) ⟨f2, dupMsg c n f1⟩ by
      simp [List.map_const', List.replicate, Nat.add_comm]]
    rw [sortFVE_replicate, dedupFVE_replicate]
  · intro f c n d items hne hno hd hf hu
    have hu1 := huval c n d items hd hu
    unfold validate_delivery_data
    rw [List.foldl_cons, List.foldl_nil]
    have hpf : processFile ⟨[], [], [], []⟩ (f, .ok items)
        = ⟨items, [], [], [((c, n), f)]⟩ := by
      unfold processFile
      dsimp only
      rw [if_neg (by simp only [List.isEmpty_iff]; exact hno)]
      rw [hf]
      rw [itemsFold_uniform_ins f c n items ⟨[], [], [], []⟩ false hu1 hne hno rfl]
      rfl
    rw [hpf]
    rfl

/-- C6 witness: concrete instantiation — files "a.xlsx" and "b.xlsx" for
customer "C" sharing order number "DN-001" with valid dates yield exactly the
one duplicate warning on "b.xlsx", everything accepted; a single file
repeating "DN-001" yields no warning. -/
theorem c6_duplicate_detection_witness :
    validate_delivery_data [("a.xlsx", .ok [c6w1]), ("b.xlsx", .ok [c6w1, c6w1])]
        = ([c6w1, c6w1, c6w1], [], [⟨"b.xlsx", dupMsg "C" "DN-001" "a.xlsx"⟩])
      ∧ validate_delivery_data [("a.xlsx", .ok [c6w1, c6w1])] = ([c6w1, c6w1], [], []) :=
  ⟨c6_duplicate_detection.1 "a.xlsx" "b.xlsx" "C" "DN-001" "2024-01-01" [c6w1] [c6w1, c6w1]
      (by decide) (by decide) (by decide) (by decide) (by decide) (by decide) (by decide)
      (by decide),
    c6_duplicate_detection.2 "a.xlsx" "C" "DN-001" "2024-01-01" [c6w1, c6w1]
      (by decide) (by decide) (by decide) (by decide) (by decide)⟩

theorem F64.zero_add (x : F64) : (F64.num 0).add x = x := by
  cases x <;> simp [F64.add]

theorem F64.add_no_nan {a b : F64} (ha : a ≠ .nan) (hb : b ≠ .nan) :
    a.add b ≠ .nan := by
  cases a with
  | nan => exact absurd rfl ha
  | num qa =>
    cases b with
    | nan => exact absurd rfl hb
    | num qb => simp [F64.add]

theorem custAppend_empty (c : String) : custAppend "" c = c := by
  unfold custAppend
  by_cases hc : strIsEmpty c = true
  · rw [if_pos hc]
    exact (stringDataInj (List.isEmpty_iff.mp hc)).symm
  · rw [if_neg hc]
    dsimp only
    have hne : ("" : String) ≠ c := fun h => hc (h ▸ rfl)
    have hany : (strSplitCommaSpace "").any (fun x => x = c) = false := by
      show ([""] : List String).any (fun x => x = c) = false
      simp [hne]
    rw [hany]
    rw [if_neg (by simp)]
    rw [if_pos (by rfl)]

theorem alFind_none_forall {κ α : Type} [DecidableEq κ] :
    ∀ (m : List (κ × α)) (k : κ), alFind m k = none → ∀ e ∈ m, e.1 ≠ k := by
  intro m k
  induction m with
  | nil => intro _ e he; cases he
  | cons x rest ih =>
    intro h e he
    simp only [alFind] at h
    split at h
    · cases h
    · rcases List.mem_cons.mp he with he | he
      · subst he
        assumption
      · exact ih h e he

theorem alFind_alUpdate_self {κ α : Type} [DecidableEq κ] (m : List (κ × α)) (k : κ)
    (f : α → α) : alFind (alUpdate m k f) k = (alFind m k).map f := by
  induction m with
  | nil => rfl
  | cons e rest ih =>
    simp only [alUpdate, List.map_cons] at ih ⊢
    by_cases he : e.1 = k
    · rw [if_pos he]
      simp [alFind, he]
    · rw [if_neg he]
      simp only [alFind, if_neg he]
      exact ih

theorem alFind_alUpdate_ne {κ α : Type} [DecidableEq κ] (m : List (κ × α)) (k k2 : κ)
    (f : α → α) (h : k2 ≠ k) : alFind (alUpdate m k f) k2 = alFind m k2 := by
  induction m with
  | nil => rfl
  | cons e rest ih =>
    simp only [alUpdate, List.map_cons] at ih ⊢
    by_cases he : e.1 = k
    · rw [if_pos he]
      have : e.1 ≠ k2 := fun h2 => h (h2 ▸ he ▸ rfl)
      simp only [alFind, if_neg (by simpa using this), if_neg this]
      exact ih
    · rw [if_neg he]
      simp only [alFind]
      by_cases he2 : e.1 = k2
      · rw [if_pos he2, if_pos he2]
      · rw [if_neg he2, if_neg he2]
        exact ih

theorem alFind_append_single_ne {κ α : Type} [DecidableEq κ] (m : List (κ × α))
    (k k2 : κ) (v : α) (h : k2 ≠ k) : alFind (m ++ [(k, v)]) k2 = alFind m k2 := by
  induction m with
  | nil =>
    show alFind [(k, v)] k2 = none
    simp only [alFind]
    rw [if_neg (fun hkk => h (Eq.symm hkk))]
  | cons e rest ih =>
    rw [List.cons_append]
    simp only [alFind]
    by_cases he : e.1 = k2
    · rw [if_pos he, if_pos he]
    · rw [if_neg he, if_neg he]
      exact ih

theorem sumQtyAt_append (pre : List DeliveryItem) (x : DeliveryItem)
    (k : String × String × String) :
    sumQtyAt (pre ++ [x]) k
      = if sKey x = k then (sumQtyAt pre k).add x.quantity else sumQtyAt pre k := by
  unfold sumQtyAt
  rw [List.filter_append, List.foldl_append]
  by_cases h : sKey x = k
  · simp [h]
  · simp [h]

theorem sumAmtAt_append (pre : List DeliveryItem) (x : DeliveryItem)
    (k : String × String × String) :
    sumAmtAt (pre ++ [x]) k
      = if sKey x = k then (sumAmtAt pre k).add x.amount else sumAmtAt pre k := by
  unfold sumAmtAt
  rw [List.filter_append, List.foldl_append]
  by_cases h : sKey x = k
  · simp [h]
  · simp [h]

theorem custJoinAt_append (pre : List DeliveryItem) (x : DeliveryItem)
    (k : String × String × String) :
    custJoinAt (pre ++ [x]) k
      = if sKey x = k then custAppend (custJoinAt pre k) x.customer
        else custJoinAt pre k := by
  unfold custJoinAt
  rw [List.filter_append, List.foldl_append]
  by_cases h : sKey x = k
  · simp [h]
  · simp [h]

theorem sumQtyAt_of_filter_nil {items : List DeliveryItem} {k : String × String × String}
    (h : items.filter (fun it => sKey it = k) = []) : sumQtyAt items k = .num 0 := by
  unfold sumQtyAt
  rw [h]
  rfl

theorem sumAmtAt_of_filter_nil {items : List DeliveryItem} {k : String × String × String}
    (h : items.filter (fun it => sKey it = k) = []) : sumAmtAt items k = .num 0 := by
  unfold sumAmtAt
  rw [h]
  rfl

theorem custJoinAt_of_filter_nil {items : List DeliveryItem} {k : String × String × String}
    (h : items.filter (fun it => sKey it = k) = []) : custJoinAt items k = "" := by
  unfold custJoinAt
  rw [h]
  rfl

theorem summaryFold_append (pre : List DeliveryItem) (x : DeliveryItem) :
    summaryFold (pre ++ [x])
      = (match alFind (summaryFold pre) (sKey x) with
         | some _ => alUpdate (summaryFold pre) (sKey x) (fun s => updSummary s x)
         | none => summaryFold pre ++ [(sKey x, initSummary x)]) := by
  unfold summaryFold
  rw [List.foldl_append]
  rfl

theorem summaryFold_wf (items : List DeliveryItem) :
    (∀ e ∈ summaryFold items, sKeyS e.2 = e.1 ∧ e.2.average_price = .num 0)
      ∧ (summaryFold items).Pairwise (fun a b => a.1 ≠ b.1) := by
  induction items using List.reverseRecOn with
  | nil => exact ⟨fun e he => absurd he (by simp [summaryFold]), List.Pairwise.nil⟩
  | append_singleton pre x ih =>
    rw [summaryFold_append]
    cases hf : alFind (summaryFold pre) (sKey x) with
    | some s0 =>
      constructor
      · intro e he
        rcases List.mem_map.mp he with ⟨e0, he0, heq⟩
        by_cases hk : e0.1 = sKey x
        · rw [if_pos hk] at heq
          subst heq
          exact ⟨(ih.1 e0 he0).1, (ih.1 e0 he0).2⟩
        · rw [if_neg hk] at heq
          subst heq
          exact ih.1 e0 he0
      · unfold alUpdate
        rw [List.pairwise_map]
        refine ih.2.imp_of_mem ?_
        intro a b _ _ hab
        by_cases ha : a.1 = sKey x <;> by_cases hb : b.1 = sKey x <;>
          simp [ha, hb] <;> simp [ha, hb] at hab ⊢ <;> assumption
    | none =>
      constructor
      · intro e he
        rcases List.mem_append.mp he with he | he
        · exact ih.1 e he
        · rcases List.mem_singleton.mp he with rfl
          exact ⟨rfl, rfl⟩
      · rw [List.pairwise_append]
        refine ⟨ih.2, List.pairwise_singleton _ _, ?_⟩
        intro a ha b hb
        rcases List.mem_singleton.mp hb with rfl
        exact alFind_none_forall (summaryFold pre) (sKey x) hf a ha

theorem summaryFold_find (items : List DeliveryItem) :
    ∀ k : String × String × String,
      (∀ s, alFind (summaryFold items) k = some s →
          s.quantity = sumQtyAt items k ∧ s.amount = sumAmtAt items k
            ∧ s.customers = custJoinAt items k)
        ∧ (alFind (summaryFold items) k = none →
            items.filter (fun it => sKey it = k) = []) := by
  induction items using List.reverseRecOn with
  | nil =>
    intro k
    refine ⟨?_, ?_⟩
    · intro s h
      cases h
    · intro _
      rfl
  | append_singleton pre x ih =>
    intro k
    rw [summaryFold_append]
    by_cases hk : sKey x = k
    · subst hk
      cases hf : alFind (summaryFold pre) (sKey x) with
      | some s0 =>
        refine ⟨?_, ?_⟩
        · intro s hs
          rw [alFind_alUpdate_self, hf] at hs
          simp only [Option.map] at hs
          cases hs
          rcases (ih (sKey x)).1 s0 hf with ⟨hq, ha, hc⟩
          refine ⟨?_, ?_, ?_⟩
          · rw [sumQtyAt_append, if_pos rfl, ← hq]
            rfl
          · rw [sumAmtAt_append, if_pos rfl, ← ha]
            rfl
          · rw [custJoinAt_append, if_pos rfl, ← hc]
            rfl
        · intro h
          rw [alFind_alUpdate_self, hf] at h
          simp at h
      | none =>
        have hnil := (ih (sKey x)).2 hf
        refine ⟨?_, ?_⟩
        · intro s hs
          rw [alFind_append_none _ _ _ hf] at hs
          cases hs
          refine ⟨?_, ?_, ?_⟩
          · rw [sumQtyAt_append, if_pos rfl, sumQtyAt_of_filter_nil hnil, F64.zero_add]
            rfl
          · rw [sumAmtAt_append, if_pos rfl, sumAmtAt_of_filter_nil hnil, F64.zero_add]
            rfl
          · rw [custJoinAt_append, if_pos rfl, custJoinAt_of_filter_nil hnil,
              custAppend_empty]
            rfl
        · intro h
          rw [alFind_append_none _ _ _ hf] at h
          cases h
    · have hkx : k ≠ sKey x := fun h => hk h.symm
      have hfilter : (pre ++ [x]).filter (fun it => sKey it = k)
          = pre.filter (fun it => sKey it = k) := by
        rw [List.filter_append]
        simp [hk]
      cases hf : alFind (summaryFold pre) (sKey x) with
      | some s0 =>
        rw [alFind_alUpdate_ne _ _ _ _ hkx]
        refine ⟨?_, ?_⟩
        · intro s hs
          rcases (ih k).1 s hs with ⟨hq, ha, hc⟩
          rw [sumQtyAt_append, if_neg hk, sumAmtAt_append, if_neg hk,
            custJoinAt_append, if_neg hk]
          exact ⟨hq, ha, hc⟩
        · intro h
          rw [hfilter]
          exact (ih k).2 h
      | none =>
        rw [alFind_append_single_ne _ _ _ _ hkx]
        refine ⟨?_, ?_⟩
        · intro s hs
          rcases (ih k).1 s hs with ⟨hq, ha, hc⟩
          rw [sumQtyAt_append, if_neg hk, sumAmtAt_append, if_neg hk,
            custJoinAt_append, if_neg hk]
          exact ⟨hq, ha, hc⟩
        · intro h
          rw [hfilter]
          exact (ih k).2 h

theorem pcmp_num_not_lt {qa qb : ℚ} (h : ¬ qa < qb) :
    F64.pcmp (.num qa) (.num qb) ≠ some .lt := by
  simp only [F64.pcmp, if_neg h]
  split <;> simp

theorem pcmp_not_lt_of {qa qb : ℚ}
    (h : F64.pcmp (.num qa) (.num qb) ≠ some .lt) : ¬ qa < qb := by
  intro hlt
  exact h (by simp [F64.pcmp, hlt])

theorem insByAmount_perm (x : SummaryItem) :
    ∀ (l r : List SummaryItem), insByAmount x l = .ok r → r.Perm (x :: l) := by
  intro l
  induction l with
  | nil =>
    intro r h
    cases h
    exact List.Perm.refl _
  | cons y ys ih =>
    intro r h
    unfold insByAmount at h
    cases hc : F64.pcmp x.amount y.amount with
    | none => rw [hc] at h; cases h
    | some o =>
      rw [hc] at h
      cases o with
      | gt =>
        cases h
        exact List.Perm.refl _
      | lt =>
        cases hr : insByAmount x ys with
        | error e => rw [hr] at h; cases h
        | ok r2 =>
          rw [hr] at h
          cases h
          exact ((ih r2 hr).cons y).trans (List.Perm.swap x y ys)
      | eq =>
        cases hr : insByAmount x ys with
        | error e => rw [hr] at h; cases h
        | ok r2 =>
          rw [hr] at h
          cases h
          exact ((ih r2 hr).cons y).trans (List.Perm.swap x y ys)

theorem insByAmount_sorted (x : SummaryItem) :
    ∀ l : List SummaryItem,
      x.amount ≠ .nan → (∀ z ∈ l, z.amount ≠ .nan) → sortedDescAmount l →
      ∃ r, insByAmount x l = .ok r ∧ sortedDescAmount r := by
  intro l
  induction l with
  | nil =>
    intro _ _ _
    exact ⟨[x], rfl, List.pairwise_singleton _ _⟩
  | cons y ys ih =>
    intro hx hl hs
    rcases List.pairwise_cons.mp hs with ⟨hy_all, hys⟩
    have hy : y.amount ≠ .nan := hl y (List.mem_cons_self y ys)
    cases hxa : x.amount with
    | nan => exact absurd hxa hx
    | num qx =>
      cases hya : y.amount with
      | nan => exact absurd hya hy
      | num qy =>
        unfold insByAmount
        rw [hxa, hya]
        by_cases hgt : qy < qx
        · have hcv : F64.pcmp (.num qx) (.num qy) = some .gt := by
            simp [F64.pcmp, hgt, asymm hgt]
          rw [hcv]
          refine ⟨x :: y :: ys, rfl, ?_⟩
          refine List.pairwise_cons.mpr ⟨?_, hs⟩
          intro z hz
          rcases List.mem_cons.mp hz with rfl | hz
          · have hgoal : F64.pcmp (.num qx) (.num qy) ≠ some .lt :=
              pcmp_num_not_lt (asymm hgt)
            rw [hxa, hya]
            exact hgoal
          · cases hza : z.amount with
            | nan => exact absurd hza (hl z (List.mem_cons_of_mem y hz))
            | num qz =>
              have hyz := hy_all z hz
              rw [hya, hza] at hyz
              have hnlt : ¬ qy < qz := pcmp_not_lt_of hyz
              have hgoal : F64.pcmp (.num qx) (.num qz) ≠ some .lt :=
                pcmp_num_not_lt (fun hlt => hnlt (lt_trans hgt hlt))
              rw [hxa]
              exact hgoal
        · rcases ih hx (fun z hz => hl z (List.mem_cons_of_mem y hz)) hys with
            ⟨r2, hr2, hr2s⟩
          have hsort : sortedDescAmount (y :: r2) := by
            refine List.pairwise_cons.mpr ⟨?_, hr2s⟩
            intro z hz
            rcases List.mem_cons.mp ((insByAmount_perm x ys r2 hr2).mem_iff.mp hz)
              with rfl | hz
            · have hgoal : F64.pcmp (.num qy) (.num qx) ≠ some .lt :=
                pcmp_num_not_lt hgt
              rw [hya, hxa]
              exact hgoal
            · exact hy_all z hz
          by_cases hlt : qx < qy
          · have hcv : F64.pcmp (.num qx) (.num qy) = some .lt := by
              simp [F64.pcmp, hlt]
            rw [hcv, hr2]
            exact ⟨y :: r2, rfl, hsort⟩
          · have hcv : F64.pcmp (.num qx) (.num qy) = some .eq := by
              simp [F64.pcmp, hlt, hgt]
            rw [hcv, hr2]
            exact ⟨y :: r2, rfl, hsort⟩

theorem sortByAmountAux_perm :
    ∀ (rest acc l : List SummaryItem),
      sortByAmountAux acc rest = .ok l → l.Perm (acc ++ rest) := by
  intro rest
  induction rest with
  | nil =>
    intro acc l h
    cases h
    simp
  | cons x xs ih =>
    intro acc l h
    unfold sortByAmountAux at h
    cases hr : insByAmount x acc with
    | error e => rw [hr] at h; cases h
    | ok acc2 =>
      rw [hr] at h
      have h1 := ih acc2 l h
      have h2 : (acc2 ++ xs).Perm (x :: (acc ++ xs)) := by
        have := (insByAmount_perm x acc acc2 hr).append_right xs
        simpa using this
      exact (h1.trans h2).trans List.perm_middle.symm

theorem sortByAmountAux_sorted :
    ∀ (rest acc : List SummaryItem),
      (∀ z ∈ acc, z.amount ≠ .nan) → (∀ z ∈ rest, z.amount ≠ .nan) →
      sortedDescAmount acc →
      ∃ l, sortByAmountAux acc rest = .ok l ∧ sortedDescAmount l := by
  intro rest
  induction rest with
  | nil =>
    intro acc _ _ hs
    exact ⟨acc, rfl, hs⟩
  | cons x xs ih =>
    intro acc hacc hrest hs
    rcases insByAmount_sorted x acc (hrest x (List.mem_cons_self x xs)) hacc hs with
      ⟨r, hr, hrs⟩
    have hrmem : ∀ z ∈ r, z.amount ≠ .nan := by
      intro z hz
      rcases List.mem_cons.mp ((insByAmount_perm x acc r hr).mem_iff.mp hz) with heq | hz2
      · rw [heq]
        exact hrest x (List.mem_cons_self x xs)
      · exact hacc z hz2
    rcases ih r hrmem (fun z hz => hrest z (List.mem_cons_of_mem x hz)) hrs with
      ⟨l, hl, hls⟩
    refine ⟨l, ?_, hls⟩
    unfold sortByAmountAux
    rw [hr]
    exact hl

theorem setAvg_key (s : SummaryItem) : sKeyS (setAvg s) = sKeyS s := by
  unfold setAvg
  split <;> rfl

theorem setAvg_qty (s : SummaryItem) : (setAvg s).quantity = s.quantity := by
  unfold setAvg
  split <;> rfl

theorem setAvg_amt (s : SummaryItem) : (setAvg s).amount = s.amount := by
  unfold setAvg
  split <;> rfl

theorem setAvg_cust (s : SummaryItem) : (setAvg s).customers = s.customers := by
  unfold setAvg
  split <;> rfl

theorem setAvg_avg (s : SummaryItem) (h0 : s.average_price = .num 0) :
    (setAvg s).average_price
      = (if s.quantity.gtZero then
          ((s.amount.div s.quantity).mul (.num 100)).rnd.div (.num 100)
        else .num 0) := by
  unfold setAvg
  split
  case isTrue h => rfl
  case isFalse h => exact h0

theorem alFind_of_mem {κ α : Type} [DecidableEq κ] :
    ∀ m : List (κ × α), m.Pairwise (fun a b => a.1 ≠ b.1) →
      ∀ e ∈ m, alFind m e.1 = some e.2 := by
  intro m
  induction m with
  | nil => intro _ e he; cases he
  | cons x rest ih =>
    intro hp e he
    rcases List.pairwise_cons.mp hp with ⟨hx, hrest⟩
    rcases List.mem_cons.mp he with he | he
    · subst he
      simp [alFind]
    · have hne : x.1 ≠ e.1 := hx e he
      simp only [alFind, if_neg hne]
      exact ih hrest e he

theorem sumAmtAt_no_nan {items : List DeliveryItem} {k : String × String × String}
    (h : ∀ it ∈ items, it.amount ≠ .nan) : sumAmtAt items k ≠ .nan := by
  unfold sumAmtAt
  have haux : ∀ (l : List DeliveryItem) (acc : F64), acc ≠ .nan →
      (∀ it ∈ l, it.amount ≠ .nan) →
      l.foldl (fun a it => a.add it.amount) acc ≠ .nan := by
    intro l
    induction l with
    | nil => intro acc ha _; exact ha
    | cons it rest ih =>
      intro acc ha hl
      rw [List.foldl_cons]
      exact ih _ (F64.add_no_nan ha (hl it (List.mem_cons_self it rest)))
        (fun z hz => hl z (List.mem_cons_of_mem it hz))
  exact haux _ _ (by simp) (fun it hit => h it (List.mem_filter.mp hit).1)

/-- C4: the summary groups records by (product, spec, unit) with one row per
distinct key; each returned row's quantity and amount are the sums over the
records with its key and its customers string is the first-seen-ordered
deduplicated ", "-join of their customers; its average price is
round(amount/quantity, 2) when quantity > 0 and 0 otherwise; for NaN-free
amounts the rows come back sorted descending by total amount; and on the
records {(A,spec1,kg,10,100),(A,spec1,kg,5,60)} (customers X and Y) the
single row is (quantity 15, amount 160, average price 10.67, customers
"X, Y"). -/
theorem c4_summary :
    (generate_summary [c4r1, c4r2]
        = .ok [{ product_name := "A", spec := "spec1", unit := "kg",
                 quantity := .num 15, average_price := .num (1067 / 100),
                 amount := .num 160, customers := "X, Y" }])
      ∧ (∀ (items : List DeliveryItem) (l : List SummaryItem),
          generate_summary items = .ok l →
            l.Pairwise (fun a b => sKeyS a ≠ sKeyS b)
              ∧ ∀ s ∈ l,
                  s.average_price
                      = (if s.quantity.gtZero then
                          ((s.amount.div s.quantity).mul (.num 100)).rnd.div (.num 100)
                        else .num 0)
                    ∧ s.quantity = sumQtyAt items (sKeyS s)
                    ∧ s.amount = sumAmtAt items (sKeyS s)
                    ∧ s.customers = custJoinAt items (sKeyS s))
      ∧ (∀ items : List DeliveryItem,
          (∀ it ∈ items, it.amount ≠ F64.nan) →
            ∃ l, generate_summary items = .ok l ∧ sortedDescAmount l) := by
  refine ⟨?_, ?_, ?_⟩
  · with_unfolding_all decide
  · intro items l hok
    have hperm : l.Perm ((summaryFold items).map (fun e => setAvg e.2)) := by
      have := sortByAmountAux_perm _ [] l hok
      simpa using this
    have hwf := summaryFold_wf items
    constructor
    · have hvals : ((summaryFold items).map (fun e => setAvg e.2)).Pairwise
          (fun a b => sKeyS a ≠ sKeyS b) := by
        rw [List.pairwise_map]
        refine hwf.2.imp_of_mem ?_
        intro a b ha hb hab
        rw [setAvg_key, setAvg_key, (hwf.1 a ha).1, (hwf.1 b hb).1]
        exact hab
      exact (hperm.pairwise_iff
        (by intro a b h he; exact h he.symm)).mpr hvals
    · intro s hsmem
      have hsv : s ∈ (summaryFold items).map (fun e => setAvg e.2) :=
        hperm.mem_iff.mp hsmem
      rcases List.mem_map.mp hsv with ⟨e, he, heq⟩
      have hkey : sKeyS e.2 = e.1 := (hwf.1 e he).1
      have havg0 : e.2.average_price = .num 0 := (hwf.1 e he).2
      have hfind : alFind (summaryFold items) e.1 = some e.2 :=
        alFind_of_mem (summaryFold items) hwf.2 e he
      rcases (summaryFold_find items e.1).1 e.2 hfind with ⟨hq, ha, hc⟩
      have hskey : sKeyS s = e.1 := by rw [← heq, setAvg_key, hkey]
      subst heq
      rw [hskey]
      refine ⟨?_, ?_, ?_, ?_⟩
      · rw [setAvg_avg e.2 havg0, setAvg_qty, setAvg_amt]
      · rw [setAvg_qty, hq]
      · rw [setAvg_amt, ha]
      · rw [setAvg_cust, hc]
  · intro items hnn
    have hvalsnn : ∀ z ∈ (summaryFold items).map (fun e => setAvg e.2),
        z.amount ≠ F64.nan := by
      intro z hz
      rcases List.mem_map.mp hz with ⟨e, he, heq⟩
      have hwf := summaryFold_wf items
      have hfind : alFind (summaryFold items) e.1 = some e.2 :=
        alFind_of_mem (summaryFold items) hwf.2 e he
      rcases (summaryFold_find items e.1).1 e.2 hfind with ⟨_, ha, _⟩
      rw [← heq, setAvg_amt, ha]
      exact sumAmtAt_no_nan hnn
    rcases sortByAmountAux_sorted ((summaryFold items).map (fun e => setAvg e.2)) []
      (by intro z hz; cases hz) hvalsnn List.Pairwise.nil with ⟨l, hl, hls⟩
    exact ⟨l, hl, hls⟩

/-- C4 witness: the general clauses instantiated at the concrete example
records. -/
theorem c4_summary_witness :
    ((∃ l, generate_summary [c4r1, c4r2] = .ok l ∧ sortedDescAmount l))
      ∧ (generate_summary [c4r1, c4r2]
            = .ok [{ product_name := "A", spec := "spec1", unit := "kg",
                     quantity := .num 15, average_price := .num (1067 / 100),
                     amount := .num 160, customers := "X, Y" }] →
          ∀ s ∈ [{ product_name := "A", spec := "spec1", unit := "kg",
                   quantity := F64.num 15, average_price := F64.num (1067 / 100),
                   amount := F64.num 160, customers := "X, Y" }],
            s.quantity = sumQtyAt [c4r1, c4r2] (sKeyS s)) := by
  constructor
  · exact c4_summary.2.2 [c4r1, c4r2] (by decide)
  · intro hok s hs
    exact ((c4_summary.2.1 [c4r1, c4r2] _ hok).2 s hs).2.1

end AnaSpec
